import Mathlib

/-!
Verification development for the PDF-catalog text pipeline
(`extractor.py`, `cleaner.py`, `assembler.py`, `qc.py` in
`Извлечение тектов/`).  The Python code is shallowly embedded: text is
`List Char`, page maps are association lists `List (Nat × Page)`, and each
regular expression of the source is compiled by hand into a deterministic
scanner with the exact match semantics of Python's `re` on the character
classes that occur in the catalog texts (ASCII plus Cyrillic).
-/

/-- Text, as Python strings: a list of characters. -/
abbrev Str := List Char

/-- Characters Python treats as whitespace for `str.strip` and the regex
class `\s` (ASCII subset; the catalog texts contain no exotic spaces). -/
def pyIsSpace (c : Char) : Bool :=
  c = ' ' || c = '\t' || c = '\n' || c = '\x0d' || c = '\x0b' || c = '\x0c'

/-- ASCII decimal digit, Python `\d` / `str.isdigit` on these texts. -/
def isDigitCh (c : Char) : Bool :=
  '0' ≤ c && c ≤ '9'

/-- Latin letter. -/
def isLatinCh (c : Char) : Bool :=
  ('a' ≤ c && c ≤ 'z') || ('A' ≤ c && c ≤ 'Z')

/-- Cyrillic letter of the classes `[А-ЯЁа-яё]` used throughout the code. -/
def isCyrCh (c : Char) : Bool :=
  ('а' ≤ c && c ≤ 'я') || ('А' ≤ c && c ≤ 'Я') || c = 'ё' || c = 'Ё'

/-- Python `\w` on the alphabets of these texts: word characters. -/
def isWordChar (c : Char) : Bool :=
  isDigitCh c || isLatinCh c || isCyrCh c || c = '_'

/-- Python `str.isupper` for a single character, on Latin and Cyrillic. -/
def pyIsUpper (c : Char) : Bool :=
  ('A' ≤ c && c ≤ 'Z') || ('А' ≤ c && c ≤ 'Я') || c = 'Ё'

/-- The character class `[А-ЯЁA-Z]` (uppercase Russian or Latin). -/
def isUpperRuEn (c : Char) : Bool :=
  ('A' ≤ c && c ≤ 'Z') || ('А' ≤ c && c ≤ 'Я') || c = 'Ё'

/-- Case folding as `str.lower` / `re.IGNORECASE` act on Latin and Cyrillic. -/
def toLowerCh (c : Char) : Char :=
  if 'A' ≤ c && c ≤ 'Z' then Char.ofNat (c.toNat + 32)
  else if 'А' ≤ c && c ≤ 'Я' then Char.ofNat (c.toNat + 32)
  else if c = 'Ё' then 'ё'
  else c

/-- Lowercase a whole string (`str.lower`). -/
def lowerStr (l : Str) : Str := l.map toLowerCh

/-- `str.strip()`: drop whitespace from both ends. -/
def stripL (l : Str) : Str :=
  ((l.dropWhile pyIsSpace).reverse.dropWhile pyIsSpace).reverse

/-- `str.lstrip('\t ')` as used by `remove_list_markers`. -/
def lstripTabSpace (l : Str) : Str :=
  l.dropWhile (fun c => c = '\t' || c = ' ')

/-- `text.split('\n')`. -/
def splitLines : Str → List Str
  | [] => [[]]
  | c :: cs =>
    if c = '\n' then [] :: splitLines cs
    else
      match splitLines cs with
      | [] => [[c]]
      | line :: rest => (c :: line) :: rest

/-- `'\n'.join(lines)`. -/
def joinLines (ls : List Str) : Str :=
  List.intercalate ['\n'] ls

/-- `sep.join(parts)` for an arbitrary separator. -/
def joinWith (sep : Str) (ls : List Str) : Str :=
  List.intercalate sep ls

/-- `k.startswith(cand)` — `cand` is a prefix of `k`. -/
def startsWithL : Str → Str → Bool
  | _, [] => true
  | [], _ :: _ => false
  | c :: cs, d :: ds => c = d && startsWithL cs ds

/-- `cand in k` — `cand` occurs as a contiguous substring of `k`. -/
def containsSub : Str → Str → Bool
  | k, cand =>
    if startsWithL k cand then true
    else
      match k with
      | [] => false
      | _ :: cs => containsSub cs cand

/-- `re.search(r'[<cls>]\s*$', l)`: the last non-whitespace character of `l`
belongs to `cls`. -/
def endsClassWs (cls : List Char) (l : Str) : Bool :=
  match l.reverse.dropWhile pyIsSpace with
  | c :: _ => cls.contains c
  | [] => false

/-! ### `cleaner.py`: `TextCleaner.fix_hyphenation` -/

/-- One left-to-right pass of `re.sub` with an anchored match attempt
`matchAt` returning `(replacement, rest after the match)`; `fuel` bounds the
number of scanning steps (callers supply the text length, which suffices
because every step consumes at least one character). -/
def reSubScan (matchAt : Str → Option (Str × Str)) : Nat → Str → Str
  | 0, l => l
  | _ + 1, [] => []
  | fuel + 1, c :: cs =>
    match matchAt (c :: cs) with
    | some (rep, rest) => rep ++ reSubScan matchAt fuel rest
    | none => c :: reSubScan matchAt fuel cs

/-- `re.sub(pattern, repl, text)` for a pattern compiled into `matchAt`. -/
def reSub (matchAt : Str → Option (Str × Str)) (l : Str) : Str :=
  reSubScan matchAt l.length l

/-- Match attempt for `(\w+)-\s+(\w+)` with replacement `\1\2`. -/
def matchHyphWs (l : Str) : Option (Str × Str) :=
  let w1 := l.takeWhile isWordChar
  let r1 := l.dropWhile isWordChar
  if w1.isEmpty then none
  else
    match r1 with
    | '-' :: r2 =>
      let sp := r2.takeWhile pyIsSpace
      let r3 := r2.dropWhile pyIsSpace
      if sp.isEmpty then none
      else
        let w2 := r3.takeWhile isWordChar
        let r4 := r3.dropWhile isWordChar
        if w2.isEmpty then none else some (w1 ++ w2, r4)
    | _ => none

/-- Match attempt for `(\w+)-\n\s*(\w+)` with replacement `\1\2`. -/
def matchHyphNl (l : Str) : Option (Str × Str) :=
  let w1 := l.takeWhile isWordChar
  let r1 := l.dropWhile isWordChar
  if w1.isEmpty then none
  else
    match r1 with
    | '-' :: '\n' :: r2 =>
      let r3 := r2.dropWhile pyIsSpace
      let w2 := r3.takeWhile isWordChar
      let r4 := r3.dropWhile isWordChar
      if w2.isEmpty then none else some (w1 ++ w2, r4)
    | _ => none

/-- Letter class of `[а-яёa-z]` under `re.IGNORECASE`. -/
def isAlphaCI (c : Char) : Bool :=
  isLatinCh c || isCyrCh c

/-- Match attempt for `([а-яёa-z])-\s+([а-яёa-z])` (IGNORECASE),
replacement `\1\2`. -/
def matchLetterHyphWs (l : Str) : Option (Str × Str) :=
  match l with
  | a :: '-' :: r2 =>
    if isAlphaCI a then
      let sp := r2.takeWhile pyIsSpace
      let r3 := r2.dropWhile pyIsSpace
      if sp.isEmpty then none
      else
        match r3 with
        | b :: r4 => if isAlphaCI b then some ([a, b], r4) else none
        | [] => none
    else none
  | _ => none

/-- Match attempt for `([а-яёa-z])-\n\s*([а-яёa-z])` (IGNORECASE),
replacement `\1\2`. -/
def matchLetterHyphNl (l : Str) : Option (Str × Str) :=
  match l with
  | a :: '-' :: '\n' :: r2 =>
    if isAlphaCI a then
      let r3 := r2.dropWhile pyIsSpace
      match r3 with
      | b :: r4 => if isAlphaCI b then some ([a, b], r4) else none
      | [] => none
    else none
  | _ => none

/-- `TextCleaner.fix_hyphenation`: the four `re.sub` passes in source order. -/
def fixHyphenation (t : Str) : Str :=
  let t1 := reSub matchHyphWs t
  let t2 := reSub matchHyphNl t1
  let t3 := reSub matchLetterHyphWs t2
  reSub matchLetterHyphNl t3

/-! ### `cleaner.py`: `TextCleaner.remove_list_markers` -/

/-- `re.sub(r'^[\s\t]*[•·▪▫][\s\t]+', '', line)` (anchored, fires at most
once): strip a bullet marker and the whitespace around it. -/
def stripBulletMarker (l : Str) : Str :=
  match l.dropWhile pyIsSpace with
  | c :: r2 =>
    if c = '•' || c = '·' || c = '▪' || c = '▫' then
      if (r2.takeWhile pyIsSpace).isEmpty then l else r2.dropWhile pyIsSpace
    else l
  | [] => l

/-- `re.sub(r'^[\s\t]*[-*][\s\t]+', '', line)`. -/
def stripDashMarker (l : Str) : Str :=
  match l.dropWhile pyIsSpace with
  | c :: r2 =>
    if c = '-' || c = '*' then
      if (r2.takeWhile pyIsSpace).isEmpty then l else r2.dropWhile pyIsSpace
    else l
  | [] => l

/-- `re.sub(r'^[\s\t]*\d+[\.\)\-][\s\t]+', '', line)`. -/
def stripNumMarker (l : Str) : Str :=
  let r1 := l.dropWhile pyIsSpace
  let ds := r1.takeWhile isDigitCh
  if ds.isEmpty then l
  else
    match r1.dropWhile isDigitCh with
    | c :: r2 =>
      if c = '.' || c = ')' || c = '-' then
        if (r2.takeWhile pyIsSpace).isEmpty then l else r2.dropWhile pyIsSpace
      else l
    | [] => l

/-- Characters of the class `[IVX]+` under `re.IGNORECASE`. -/
def isRomanCh (c : Char) : Bool :=
  c = 'I' || c = 'V' || c = 'X' || c = 'i' || c = 'v' || c = 'x'

/-- `re.sub(r'^[\s\t]*[IVX]+[\.\)][\s\t]+', '', line, flags=re.IGNORECASE)`. -/
def stripRomanMarker (l : Str) : Str :=
  let r1 := l.dropWhile pyIsSpace
  let rs := r1.takeWhile isRomanCh
  if rs.isEmpty then l
  else
    match r1.dropWhile isRomanCh with
    | c :: r2 =>
      if c = '.' || c = ')' then
        if (r2.takeWhile pyIsSpace).isEmpty then l else r2.dropWhile pyIsSpace
      else l
    | [] => l

/-- `re.sub(r'^[\s\t]*[а-яёa-z][\.\)\-][\s\t]+', '', line, flags=re.IGNORECASE)`. -/
def stripLetterMarker (l : Str) : Str :=
  match l.dropWhile pyIsSpace with
  | a :: c :: r2 =>
    if isAlphaCI a && (c = '.' || c = ')' || c = '-') then
      if (r2.takeWhile pyIsSpace).isEmpty then l else r2.dropWhile pyIsSpace
    else l
  | _ => l

/-- `TextCleaner.remove_list_markers`: the five anchored substitutions in
source order on each line, then `lstrip('\t ')`. -/
def removeListMarkers (t : Str) : Str :=
  joinLines ((splitLines t).map fun line =>
    lstripTabSpace
      (stripLetterMarker (stripRomanMarker (stripNumMarker
        (stripDashMarker (stripBulletMarker line))))))

/-! ### `cleaner.py`: `TextCleaner.remove_page_numbers` -/

/-- Consume a case-insensitive literal. -/
def litCI : Str → Str → Option Str
  | l, [] => some l
  | [], _ :: _ => none
  | c :: cs, p :: ps => if toLowerCh c = toLowerCh p then litCI cs ps else none

/-- Consume `\d+`. -/
def digitsRun (l : Str) : Option Str :=
  if (l.takeWhile isDigitCh).isEmpty then none else some (l.dropWhile isDigitCh)

/-- `re.match(r'^\s*\d+\s*$', line)`. -/
def isBareNumberLine (l : Str) : Bool :=
  match digitsRun (l.dropWhile pyIsSpace) with
  | some r => (r.dropWhile pyIsSpace).isEmpty
  | none => false

/-- `re.match(r'^\s*стр\.?\s*\d+\s*$', line, re.IGNORECASE)`. -/
def isStrNumberLine (l : Str) : Bool :=
  match litCI (l.dropWhile pyIsSpace) "стр".data with
  | some r1 =>
    let r2 := match r1 with
      | '.' :: rest => rest
      | _ => r1
    match digitsRun (r2.dropWhile pyIsSpace) with
    | some r3 => (r3.dropWhile pyIsSpace).isEmpty
    | none => false
  | none => false

/-- `re.match(r'^\s*page\s+\d+\s*$', line, re.IGNORECASE)`. -/
def isPageWordLine (l : Str) : Bool :=
  match litCI (l.dropWhile pyIsSpace) "page".data with
  | some r1 =>
    if (r1.takeWhile pyIsSpace).isEmpty then false
    else
      match digitsRun (r1.dropWhile pyIsSpace) with
      | some r2 => (r2.dropWhile pyIsSpace).isEmpty
      | none => false
  | none => false

/-- `re.match(r'^\s*\d+\s*/\s*\d+\s*$', line)`. -/
def isFractionLine (l : Str) : Bool :=
  match digitsRun (l.dropWhile pyIsSpace) with
  | some r1 =>
    match r1.dropWhile pyIsSpace with
    | '/' :: r2 =>
      match digitsRun (r2.dropWhile pyIsSpace) with
      | some r3 => (r3.dropWhile pyIsSpace).isEmpty
      | none => false
    | _ => false
  | none => false

/-- A line the `page_number_patterns` list of `TextCleaner` matches. -/
def isPageNumberLine (l : Str) : Bool :=
  isBareNumberLine l || isStrNumberLine l || isPageWordLine l || isFractionLine l

/-- `TextCleaner.remove_page_numbers`: drop page-number lines. -/
def removePageNumbers (t : Str) : Str :=
  joinLines ((splitLines t).filter fun line => !isPageNumberLine line)

/-! ### `cleaner.py`: decorative-artifact removal in `clean_text` -/

/-- Consume a case-insensitive literal followed by `\s+`. -/
def litCIWs (l : Str) (p : Str) : Option Str :=
  match litCI l p with
  | some r =>
    if (r.takeWhile pyIsSpace).isEmpty then none else some (r.dropWhile pyIsSpace)
  | none => none

/-- Match attempt for
`skin\s+skin\s+ess\s+ess\s+ent\s+ent\s+ials\s+ials` (IGNORECASE),
replacement empty. -/
def matchDecorAt (l : Str) : Option (Str × Str) :=
  (litCIWs l "skin".data).bind fun r1 =>
  (litCIWs r1 "skin".data).bind fun r2 =>
  (litCIWs r2 "ess".data).bind fun r3 =>
  (litCIWs r3 "ess".data).bind fun r4 =>
  (litCIWs r4 "ent".data).bind fun r5 =>
  (litCIWs r5 "ent".data).bind fun r6 =>
  (litCIWs r6 "ials".data).bind fun r7 =>
  (litCI r7 "ials".data).map fun r8 => (([] : Str), r8)

/-- The same pattern with a trailing `\s*` (the second substitution). -/
def matchDecorTrailAt (l : Str) : Option (Str × Str) :=
  (matchDecorAt l).map fun pr => (pr.1, pr.2.dropWhile pyIsSpace)

/-- Both decorative-element substitutions of `clean_text`, in order. -/
def removeDecor (t : Str) : Str :=
  reSub matchDecorTrailAt (reSub matchDecorAt t)

/-! ### `cleaner.py`: `TextCleaner.merge_lines_in_sentences` -/

/-- `re.search(r'[.!?]\s*$', l)`. -/
def endsTerminal (l : Str) : Bool :=
  endsClassWs ['.', '!', '?'] l

/-- `l[0].isupper() and not l[0].isdigit()` for a stripped line. -/
def headUpperNonDigit (l : Str) : Bool :=
  match l with
  | c :: _ => pyIsUpper c && !isDigitCh c
  | [] => false

/-- `re.search(r'^[А-ЯЁA-Z]', l[:3])`: the first character is uppercase
Russian or Latin. -/
def headIsUpperRuEn (l : Str) : Bool :=
  match l.take 3 with
  | c :: _ => isUpperRuEn c
  | [] => false

/-- `current.endswith(',')`. -/
def endsComma (l : Str) : Bool :=
  match l.reverse with
  | c :: _ => c = ','
  | [] => false

/-- The inner `while` loop of `merge_lines_in_sentences` (lines 137–152): keep
appending stripped lines to `cur` until a blank line, a terminal-punctuation
line (consumed), or a short capitalised line (treated as a subheading).
Returns the accumulated line and the unconsumed rest. -/
def mergeInner : Nat → Str → List Str → Str × List Str
  | 0, cur, ls => (cur, ls)
  | _ + 1, cur, [] => (cur, [])
  | fuel + 1, cur, l0 :: rest =>
    let nl := stripL l0
    if nl.isEmpty then (cur, l0 :: rest)
    else if endsTerminal nl then (cur ++ ' ' :: nl, rest)
    else if headUpperNonDigit nl && nl.length < 50 then (cur, l0 :: rest)
    else mergeInner fuel (cur ++ ' ' :: nl) rest

/-- The joining expression of lines 131–134 of `cleaner.py`. -/
def mergeJoin (current next : Str) : Str :=
  if !current.isEmpty
      && !(match current.reverse with | c :: _ => c = ' ' | [] => false)
      && !(match next with | c :: _ => c = ' ' | _ => false) then
    current ++ ' ' :: next
  else
    stripL (((current.reverse.dropWhile pyIsSpace).reverse) ++
      ' ' :: (next.dropWhile pyIsSpace))

/-- The main loop of `merge_lines_in_sentences`, over the remaining suffix of
the line list (the Python index `i` only moves forward). -/
def mergeLinesF : Nat → List Str → List Str
  | 0, _ => []
  | _ + 1, [] => []
  | fuel + 1, l0 :: rest =>
    let current := stripL l0
    if current.isEmpty then [] :: mergeLinesF fuel rest
    else if endsTerminal current then current :: mergeLinesF fuel rest
    else
      match rest with
      | [] => [current]
      | l1 :: rest2 =>
        let next := stripL l1
        if next.isEmpty then current :: mergeLinesF fuel rest
        else if headUpperNonDigit next && endsClassWs [';', ':'] current then
          current :: mergeLinesF fuel rest
        else if headUpperNonDigit next && !endsComma current
            && !headIsUpperRuEn next && current.length < 50 then
          current :: mergeLinesF fuel rest
        else
          let pr := mergeInner fuel (mergeJoin current next) rest2
          pr.1 :: mergeLinesF fuel pr.2

/-- `TextCleaner.merge_lines_in_sentences`. -/
def mergeLinesInSentences (t : Str) : Str :=
  let lines := splitLines t
  joinLines (mergeLinesF lines.length lines)

/-! ### `cleaner.py`: `TextCleaner.clean_text` -/

/-- A per-page record as produced by the extractor. -/
structure Page where
  full_text : Str
  top_left_title_raw : Str
  top_left_title_norm : Str
  composition : Str
deriving DecidableEq, Repr

/-- The ordered rule pipeline `clean_text` applies to one page's body text. -/
def cleanFullText (t : Str) : Str :=
  mergeLinesInSentences (removeDecor (removePageNumbers
    (removeListMarkers (fixHyphenation t))))

/-- `TextCleaner.clean_text` / module-level `clean_text`: rebuild the page
map with `full_text` cleaned and all other fields copied through. -/
def cleanText (pm : List (Nat × Page)) : List (Nat × Page) :=
  pm.map fun e =>
    (e.1,
      { full_text := cleanFullText e.2.full_text
        top_left_title_raw := e.2.top_left_title_raw
        top_left_title_norm := e.2.top_left_title_norm
        composition := e.2.composition })

/-! ### Pattern scanners shared by `assembler.py` and `qc.py` -/

/-- `finditer`: left-to-right non-overlapping scan.  `matchAt` receives the
character immediately before the current position (`none` at the start of the
text) so that `\b` and MULTILINE `^` can be decided, and returns the match
payload, the character just before the resumption point, and the rest. -/
def reFindScanPos (matchAt : Option Char → Str → Option (α × Option Char × Str)) :
    Nat → Option Char → Str → List α
  | 0, _, _ => []
  | _ + 1, _, [] => []
  | fuel + 1, prev, c :: cs =>
    match matchAt prev (c :: cs) with
    | some (a, prev2, rest) => a :: reFindScanPos matchAt fuel prev2 rest
    | none => reFindScanPos matchAt fuel (some c) cs

/-- All matches of a compiled pattern in a text. -/
def reFindAll (matchAt : Option Char → Str → Option (α × Option Char × Str))
    (t : Str) : List α :=
  reFindScanPos matchAt t.length none t

/-- Case-insensitive substring test (`re.search` of a literal alternative
under `re.IGNORECASE`). -/
def containsCI (l : Str) (pat : Str) : Bool :=
  containsSub (lowerStr l) (lowerStr pat)

/-- Match attempt for `Артикул\s+(\d+)` (IGNORECASE); the payload is the
captured digit group. -/
def matchArticleAt (_ : Option Char) (l : Str) : Option (Str × Option Char × Str) :=
  match litCI l "Артикул".data with
  | some r1 =>
    if (r1.takeWhile pyIsSpace).isEmpty then none
    else
      let r2 := r1.dropWhile pyIsSpace
      let ds := r2.takeWhile isDigitCh
      if ds.isEmpty then none
      else some (ds, some (ds.getLastD '0'), r2.dropWhile isDigitCh)
  | none => none

/-- All captured article codes in a text
(`article_pattern.finditer`, `group(1)`). -/
def findArticles (t : Str) : List Str :=
  reFindAll matchArticleAt t

/-- `re.search(r'Артикул\s+\d+', line, re.IGNORECASE)` as a Boolean. -/
def lineHasArticle (line : Str) : Bool :=
  !(findArticles line).isEmpty

/-- The greedy QC title pattern `([А-ЯЁа-яё\s\-]+)\s*/\s*([A-Za-z\s\-]+)`:
the payload is `group(0).strip()` as stored by the quality controller.  A
match exists exactly when a non-empty run of class-1 characters is followed
by `/` and a non-empty run of class-2 characters (backtracking between the
greedy classes and `\s*` never changes the matched span). -/
def matchQcTitleAt (_ : Option Char) (l : Str) : Option (Str × Option Char × Str) :=
  let run1 := l.takeWhile (fun c => isCyrCh c || pyIsSpace c || c = '-')
  if run1.isEmpty then none
  else
    match l.dropWhile (fun c => isCyrCh c || pyIsSpace c || c = '-') with
    | '/' :: r2 =>
      let run2 := r2.takeWhile (fun c => isLatinCh c || pyIsSpace c || c = '-')
      if run2.isEmpty then none
      else
        some (stripL (run1 ++ '/' :: run2), some (run2.getLastD '/'),
          r2.dropWhile (fun c => isLatinCh c || pyIsSpace c || c = '-'))
    | _ => none

/-- All product-title anchors of the quality controller. -/
def findQcTitles (t : Str) : List Str :=
  reFindAll matchQcTitleAt t

/-- The class `[\d.]`. -/
def isPhNumCh (c : Char) : Bool :=
  isDigitCh c || c = '.'

/-- Match attempt for `\bpH\s*[=:]?\s*[\d.]+` (IGNORECASE); the payload is
`group(0).strip()`. -/
def matchPhAt (prev : Option Char) (l : Str) : Option (Str × Option Char × Str) :=
  let boundary := match prev with | some c => !isWordChar c | none => true
  if !boundary then none
  else
    match l with
    | p :: h :: r1 =>
      if toLowerCh p = 'p' && toLowerCh h = 'h' then
        let ws1 := r1.takeWhile pyIsSpace
        let r2 := r1.dropWhile pyIsSpace
        match r2 with
        | c :: r3 =>
          if c = '=' || c = ':' then
            let ws2 := r3.takeWhile pyIsSpace
            let r4 := r3.dropWhile pyIsSpace
            let ds := r4.takeWhile isPhNumCh
            if ds.isEmpty then none
            else
              some (stripL (p :: h :: (ws1 ++ c :: (ws2 ++ ds))),
                some (ds.getLastD '0'), r4.dropWhile isPhNumCh)
          else
            let ds := r2.takeWhile isPhNumCh
            if ds.isEmpty then none
            else
              some (stripL (p :: h :: (ws1 ++ ds)),
                some (ds.getLastD '0'), r2.dropWhile isPhNumCh)
        | [] => none
      else none
    | _ => none

/-- All pH anchors of the quality controller. -/
def findPhValues (t : Str) : List Str :=
  reFindAll matchPhAt t

/-- Consume a sequence of case-insensitive literal words separated by `\s+`. -/
def litSeqCI (l : Str) : List Str → Option Str
  | [] => some l
  | [w] => litCI l w
  | w :: rest => (litCIWs l w).bind fun r => litSeqCI r rest

/-- Match attempt for a MULTILINE-anchored subheading pattern
`^w1\s+w2...` (IGNORECASE), optionally requiring trailing `\s+` (as in
`^Для\s+`); the payload is `group(0).strip()`. -/
def matchPhraseAt (words : List Str) (trailingWs : Bool) (prev : Option Char)
    (l : Str) : Option (Str × Option Char × Str) :=
  let lineStart := match prev with | none => true | some c => c = '\n'
  if !lineStart then none
  else
    match litSeqCI l words with
    | some r1 =>
      let r2 : Option Str :=
        if trailingWs then
          if (r1.takeWhile pyIsSpace).isEmpty then none
          else some (r1.dropWhile pyIsSpace)
        else some r1
      match r2 with
      | some rest =>
        let g0 := l.take (l.length - rest.length)
        some (stripL g0, some (g0.getLastD ' '), rest)
      | none => none
    | none => none

/-- All subheading anchors: the five `subheading_patterns` of
`QualityController`, each scanned separately. -/
def findSubheadings (t : Str) : List Str :=
  reFindAll (matchPhraseAt ["Для".data] true) t ++
  reFindAll (matchPhraseAt ["Основные".data, "активные".data, "ингредиенты".data] false) t ++
  reFindAll (matchPhraseAt ["Механизм".data, "действия".data] false) t ++
  reFindAll (matchPhraseAt ["Использование".data] false) t ++
  reFindAll (matchPhraseAt ["Основные".data, "преимущества".data] false) t

/-! ### The assembler's lazy bilingual title pattern
`([А-ЯЁа-яё][А-ЯЁа-яё\s\-\.,]+?)\s*/\s*([a-zA-Z][a-zA-Z\s\-\.,]+?)`
(IGNORECASE).  Both quantifiers are lazy; the second group therefore always
matches exactly two characters, and the first group grows one character at a
time until `\s*/\s*` and the two-character English group can match. -/

/-- The tail class `[А-ЯЁа-яё\s\-\.,]` of the Russian group. -/
def lazyCls1 (c : Char) : Bool :=
  isCyrCh c || pyIsSpace c || c = '-' || c = '.' || c = ','

/-- The tail class `[a-zA-Z\s\-\.,]` of the English group. -/
def lazyCls2 (c : Char) : Bool :=
  isLatinCh c || pyIsSpace c || c = '-' || c = '.' || c = ','

/-- `\s*/\s*[a-zA-Z][a-zA-Z\s\-\.,]` after the Russian group: returns the
two-character English group and the rest. -/
def lazyFinish (r : Str) : Option (Str × Str) :=
  match r.dropWhile pyIsSpace with
  | '/' :: r2 =>
    match r2.dropWhile pyIsSpace with
    | e1 :: e2 :: r4 =>
      if isLatinCh e1 && lazyCls2 e2 then some ([e1, e2], r4) else none
    | _ => none
  | _ => none

/-- Lazy extension of the Russian group: try the shortest tail first. -/
def lazyG1 (acc : Str) : Str → Option (Str × Str × Str)
  | x :: rest2 =>
    if lazyCls1 x then
      match lazyFinish rest2 with
      | some pr => some (acc ++ [x], pr.1, pr.2)
      | none => lazyG1 (acc ++ [x]) rest2
    else none
  | [] => none

/-- Match attempt for the assembler's `title_pattern`; the payload is
`(group(1), group(2))` (not yet stripped). -/
def matchLazyTitleAt (_ : Option Char) (l : Str) :
    Option ((Str × Str) × Option Char × Str) :=
  match l with
  | c0 :: r0 =>
    if isCyrCh c0 then
      match lazyG1 [] r0 with
      | some pr => some ((c0 :: pr.1, pr.2.1), none, pr.2.2)
      | none => none
    else none
  | [] => none

/-- `title_pattern.finditer(text)` for the assembler's pattern. -/
def titleFindLazy (t : Str) : List (Str × Str) :=
  reFindAll matchLazyTitleAt t

/-- `title_pattern.search(text)`: the first match only. -/
def searchLazyTitle (t : Str) : Option (Str × Str) :=
  (titleFindLazy t).head?

/-! ### `assembler.py`: title lookup and fuzzy resolution -/

/-- First-match association-list lookup (Python `dict` access /
`key in dict`). -/
def lookupAssoc : List (Str × α) → Str → Option α
  | [], _ => none
  | e :: rest, k => if e.1 = k then some e.2 else lookupAssoc rest k

/-- In-place value update at a key, preserving entry order (Python `dict`
assignment for an existing key). -/
def updateAssoc : List (Str × α) → Str → α → List (Str × α)
  | [], _, _ => []
  | e :: rest, k, v => if e.1 = k then (k, v) :: rest else e :: updateAssoc rest k v

/-- Empty page, for total association access (`Dict` indexing never fails on
the page maps the pipeline builds). -/
def emptyPage : Page := ⟨[], [], [], []⟩

/-- `cleaned_by_page[page_num]`. -/
def pageAt (pm : List (Nat × Page)) (n : Nat) : Page :=
  match pm.find? (fun e => e.1 = n) with
  | some e => e.2
  | none => emptyPage

/-- `sorted(cleaned_by_page.keys())` paired with the page records. -/
def sortPages (pm : List (Nat × Page)) : List (Nat × Page) :=
  List.insertionSort (fun a b => a.1 ≤ b.1) pm

/-- The `(russian, english)` pairs, stripped, of all bilingual title matches
of one page text, in match order. -/
def titleOccurrencesOfText (t : Str) : List (Str × Str) :=
  (titleFindLazy t).map (fun g => (stripL g.1, stripL g.2))

/-- All title occurrences of the first five pages in ascending page order
(the scan range of `_build_title_lookup`). -/
def titleOccurrences (pm : List (Nat × Page)) : List (Str × Str) :=
  ((sortPages pm).take 5).foldr
    (fun e acc => titleOccurrencesOfText e.2.full_text ++ acc) []

/-- One step of the lookup construction: key by the lowercased English span;
on collision keep the entry whose Russian string is strictly longer. -/
def insertOcc (tbl : List (Str × (Str × Str))) (occ : Str × Str) :
    List (Str × (Str × Str)) :=
  let key := lowerStr occ.2
  match lookupAssoc tbl key with
  | none => tbl ++ [(key, occ)]
  | some cur => if occ.1.length > cur.1.length then updateAssoc tbl key occ else tbl

/-- `TextAssembler._build_title_lookup`. -/
def buildTitleLookup (pm : List (Nat × Page)) : List (Str × (Str × Str)) :=
  (titleOccurrences pm).foldl insertOcc []

/-- The fuzzy-match loop body of `_resolve_full_title` (lines 193–217): the
accumulator is `(best_match, best_match_length)`.  The table always holds
`(russian, english)` tuples here, so the `isinstance` legacy branches of the
source collapse. -/
def fuzzyStep (cand : Str) (acc : Option (Str × Str) × Nat) (e : Str × (Str × Str)) :
    Option (Str × Str) × Nat :=
  if startsWithL e.1 cand then
    (if e.1.length > acc.2 then (some e.2, e.1.length) else acc)
  else if containsSub e.1 cand then
    (if e.1.length > acc.2 then (some e.2, e.1.length) else acc)
  else if 2 ≤ cand.length && cand.length ≤ 4 && startsWithL e.1 cand then
    (if e.1.length > acc.2 then (some e.2, e.1.length) else acc)
  else acc

/-- The fuzzy search over the whole lookup table. -/
def fuzzyBest (cand : Str) (tbl : List (Str × (Str × Str))) : Option (Str × Str) :=
  (tbl.foldl (fuzzyStep cand) (none, 0)).1

/-- Exact case-insensitive key lookup first, then the fuzzy search
(lines 185–220 of `assembler.py`). -/
def lookupTitle (tbl : List (Str × (Str × Str))) (cand : Str) : Option (Str × Str) :=
  match lookupAssoc tbl cand with
  | some v => some v
  | none => fuzzyBest cand tbl

/-! ### `assembler.py`: English/Russian title discovery in page text -/

/-- Python truthiness of an optional string. -/
def optStrTruthy : Option Str → Bool
  | none => false
  | some s => !s.isEmpty

/-- The first index whose line satisfies `p` (the `for i, line in
enumerate(lines)` search loops of the assembler). -/
def findIdxFrom (p : Str → Bool) : Nat → List Str → Option Nat
  | _, [] => none
  | i, l :: rest => if p l then some i else findIdxFrom p (i + 1) rest

/-- The index of the first line containing an article code. -/
def firstArticleIdx (lines : List Str) : Option Nat :=
  findIdxFrom lineHasArticle 0 lines

/-- The boilerplate filter of `_find_english_title_in_text`
(`артикул|article|мл|ml|home|professional`, IGNORECASE). -/
def enBoiler (line : Str) : Bool :=
  containsCI line "артикул".data || containsCI line "article".data ||
  containsCI line "мл".data || containsCI line "ml".data ||
  containsCI line "home".data || containsCI line "professional".data

/-- The acceptance test applied to a stripped candidate line when scanning
upward from the article line: starts with a Latin letter, contains no
Cyrillic, is not boilerplate, and has length 3–150. -/
def lineIsLatinTitle (line : Str) : Bool :=
  (match line with | c :: _ => isLatinCh c | [] => false)
    && !(line.any isCyrCh)
    && !enBoiler line
    && (3 ≤ line.length && line.length ≤ 150)

/-- `TextAssembler._find_english_title_in_text`.  Note the Python truthiness
test `if article_line_idx:` — an article line found at index 0 is treated
like no article line at all, so only the in-text bilingual pattern remains. -/
def findEnglishTitleInText (text : Str) : Option Str :=
  let lines := splitLines text
  let aidx := firstArticleIdx lines
  let fromScan : Option Str :=
    match aidx with
    | some idx =>
      if idx ≠ 0 then
        let low := idx - 5
        ((List.range' low (idx - low)).reverse.filterMap
            (fun i => (lines.get? i).map stripL)).find?
          (fun line => !line.isEmpty && lineIsLatinTitle line)
      else none
    | none => none
  match fromScan with
  | some l => some l
  | none => (searchLazyTitle text).map (fun g => stripL g.2)

/-- The boilerplate filter of `_find_russian_title_before_article`
(`артикул|мл|домашняя|профессиональный|липидный|уровень|увлажнения`). -/
def ruBoiler (line : Str) : Bool :=
  containsCI line "артикул".data || containsCI line "мл".data ||
  containsCI line "домашняя".data || containsCI line "профессиональный".data ||
  containsCI line "липидный".data || containsCI line "уровень".data ||
  containsCI line "увлажнения".data

/-- The collection loop of `_find_russian_title_before_article`: walk the
given indices (descending), prepend Cyrillic lines, stop at a Latin-only
line. -/
def collectRu (lines : List Str) : List Nat → List Str → List Str
  | [], parts => parts
  | i :: rest, parts =>
    match (lines.get? i).map stripL with
    | some line =>
      if line.isEmpty then collectRu lines rest parts
      else if ruBoiler line then collectRu lines rest parts
      else if line.any isCyrCh && 2 ≤ line.length then
        collectRu lines rest (line :: parts)
      else if (match line with | c :: _ => isLatinCh c | [] => false)
          && !(line.any isCyrCh) then parts
      else collectRu lines rest parts
    | none => collectRu lines rest parts

/-- `TextAssembler._find_russian_title_before_article`. -/
def findRussianTitleBeforeArticle (text : Str) : Option Str :=
  let lines := splitLines text
  match firstArticleIdx lines with
  | none => none
  | some idx =>
    let low := idx - 8
    let parts := collectRu lines ((List.range' low (idx - low)).reverse) []
    if parts.isEmpty then none else some (joinWith [' '] parts)

/-- `TextAssembler._resolve_full_title`. -/
def resolveFullTitle (tbl : List (Str × (Str × Str))) (titleFromRoi : Str)
    (pageText : Str) : Str :=
  let roiM := searchLazyTitle titleFromRoi
  let roiRussian : Str :=
    match roiM with | some g => stripL g.1 | none => stripL titleFromRoi
  let roiEnglish : Option Str :=
    match roiM with | some g => some (stripL g.2) | none => none
  let e0 := findEnglishTitleInText pageText
  let englishTitle : Option Str :=
    if !optStrTruthy e0 && optStrTruthy roiEnglish then roiEnglish else e0
  if !optStrTruthy englishTitle then titleFromRoi
  else
    let et := englishTitle.getD []
    let lookupValue := lookupTitle tbl (lowerStr et)
    let fullEnglish : Str := match lookupValue with | some v => v.2 | none => et
    let fullRussian0 : Option Str := lookupValue.map (fun v => v.1)
    let fullRussian1 : Option Str :=
      if !optStrTruthy fullRussian0 then findRussianTitleBeforeArticle pageText
      else fullRussian0
    let fullRussian2 : Option Str :=
      if !optStrTruthy fullRussian1 && !roiRussian.isEmpty then some roiRussian
      else fullRussian1
    if optStrTruthy fullRussian2 && !fullEnglish.isEmpty then
      fullRussian2.getD [] ++ " / ".data ++ fullEnglish
    else if optStrTruthy fullRussian2 then fullRussian2.getD []
    else if !fullEnglish.isEmpty then fullEnglish
    else titleFromRoi

/-! ### `assembler.py`: block assembly state machine and rendering -/

/-- `TextAssembler.clean_block`, step 1: collapse runs of blank lines to a
single empty line (`prev_empty` threading of lines 481–491). -/
def collapseEmpties : List Str → Bool → List Str
  | [], _ => []
  | line :: rest, prevEmpty =>
    if (stripL line).isEmpty then
      if prevEmpty then collapseEmpties rest true
      else [] :: collapseEmpties rest true
    else line :: collapseEmpties rest false

/-- A line the block cleaner treats as blank (`not line.strip()`). -/
def isBlankLine (l : Str) : Bool :=
  (stripL l).isEmpty

/-- The line list `clean_block` joins: blank runs collapsed, then the
leading and trailing blank lines popped. -/
def cleanBlockLines (t : Str) : List Str :=
  let ls := collapseEmpties (splitLines t) false
  let ls2 := ls.dropWhile isBlankLine
  (ls2.reverse.dropWhile isBlankLine).reverse

/-- `TextAssembler.clean_block`. -/
def cleanBlock (t : Str) : Str :=
  joinLines (cleanBlockLines t)

/-- `TextAssembler._create_product_block`. -/
def createProductBlock (tbl : List (Str × (Str × Str))) (title : Str)
    (pageIdxs : List Nat) (pm : List (Nat × Page)) : Str :=
  let pageTexts :=
    (pageIdxs.map (fun n => (pageAt pm n).full_text)).filter
      (fun t => !(stripL t).isEmpty)
  let firstComp : Str :=
    match (pageIdxs.map (fun n => pageAt pm n)).find?
        (fun p => !(stripL p.full_text).isEmpty) with
    | some p => stripL p.composition
    | none => []
  let combined := joinWith "\n\n".data pageTexts
  let fullTitle := resolveFullTitle tbl title combined
  let cleanedText := cleanBlock combined
  let blockHeader :=
    if !firstComp.isEmpty then fullTitle ++ '\n' :: firstComp else fullTitle
  if !(stripL cleanedText).isEmpty then blockHeader ++ "\n\n".data ++ cleanedText
  else blockHeader

/-- `TextAssembler._create_section_block`. -/
def createSectionBlock (pageIdxs : List Nat) (pm : List (Nat × Page)) : Str :=
  cleanBlock (joinWith "\n\n".data
    ((pageIdxs.map (fun n => (pageAt pm n).full_text)).filter
      (fun t => !(stripL t).isEmpty)))

/-- The loop state of `assemble_by_title_anchors`: closed product groups (in
order), the active product title and page list, and the pre-product section
pages. -/
structure AsmState where
  closed : List (Str × List Nat)
  curTitle : Option Str
  curPages : List Nat
  secPages : List Nat
deriving DecidableEq, Repr

/-- The initial loop state. -/
def initAsm : AsmState := ⟨[], none, [], []⟩

/-- Closing the active product
(`if current_product_title and current_product_pages:`). -/
def closeList (s : AsmState) : List (Str × List Nat) :=
  match s.curTitle with
  | some t => if !t.isEmpty && !s.curPages.isEmpty then [(t, s.curPages)] else []
  | none => []

/-- The per-page transition of `assemble_by_title_anchors`. -/
def stepPage (s : AsmState) (e : Nat × Page) : AsmState :=
  let tn := stripL e.2.top_left_title_norm
  if !tn.isEmpty then
    if s.curTitle ≠ some tn then
      { closed := s.closed ++ closeList s, curTitle := some tn,
        curPages := [e.1], secPages := s.secPages }
    else { s with curPages := s.curPages ++ [e.1] }
  else
    if optStrTruthy s.curTitle then { s with curPages := s.curPages ++ [e.1] }
    else { s with secPages := s.secPages ++ [e.1] }

/-- Run the loop over a list of pages. -/
def runPages (s : AsmState) (l : List (Nat × Page)) : AsmState :=
  l.foldl stepPage s

/-- The grouping computed by `assemble_by_title_anchors`: the closed product
groups (with the terminal close) and the section pages. -/
def assembleGroups (pm : List (Nat × Page)) : List (Str × List Nat) × List Nat :=
  let s := runPages initAsm (sortPages pm)
  (s.closed ++ closeList s, s.secPages)

/-- Block kinds of the final output. -/
inductive BlockKind
  | product
  | sectionB
deriving DecidableEq, Repr

/-- A final output block, tagged with the grouping that produced its text. -/
structure Block where
  kind : BlockKind
  anchorTitle : Str
  pages : List Nat
  text : Str
deriving DecidableEq, Repr

/-- `TextAssembler.assemble_by_title_anchors`, with each emitted string
tagged by the grouping that produced it. -/
def assembleBlocks (pm : List (Nat × Page)) : List Block :=
  let tbl := buildTitleLookup pm
  let gr := assembleGroups pm
  let products := gr.1.map
    (fun g => Block.mk .product g.1 g.2 (createProductBlock tbl g.1 g.2 pm))
  if !gr.2.isEmpty then
    let secText := createSectionBlock gr.2 pm
    if !(stripL secText).isEmpty then
      Block.mk .sectionB [] gr.2 secText :: products
    else products
  else products

/-- The block strings `assemble_text` returns. -/
def assembleTexts (pm : List (Nat × Page)) : List Str :=
  (assembleBlocks pm).map (fun b => b.text)

/-! ### `extractor.py`: strategy fallback of `PDFExtractor.extract` -/

/-- The success test applied to each strategy result
(`result and any(data.get('full_text', '').strip() for ...)`). -/
def strategySuccess (r : List (Nat × Page)) : Bool :=
  !r.isEmpty && r.any (fun e => !(stripL e.2.full_text).isEmpty)

/-- The fatal extraction message. -/
def extractErrMsg : Str :=
  "Не удалось извлечь текст ни одним методом.".data

/-- `PDFExtractor.extract`, abstracted over the three strategy outcomes: the
page maps returned by the PyMuPDF and pdfplumber attempts (their exception
handlers return `{}`, i.e. `[]`), the OCR availability flag, and the OCR
attempt (`none` models `extract_with_ocr` raising, which the `try` block
turns into falling through to the final `raise`). -/
def extractPdf (pymupdfResult pdfplumberResult : List (Nat × Page))
    (ocrAvailable : Bool) (ocrResult : Option (List (Nat × Page))) :
    Except Str (List (Nat × Page)) :=
  if strategySuccess pymupdfResult then .ok pymupdfResult
  else if strategySuccess pdfplumberResult then .ok pdfplumberResult
  else if ocrAvailable then
    match ocrResult with
    | some r => if strategySuccess r then .ok r else .error extractErrMsg
    | none => .error extractErrMsg
  else .error extractErrMsg

/-- Modelled from the spec (§4.1): the applicable strategies as an ordered
list — OCR only when available — folded until the first one that yields a
page with non-empty body text; a fatal error when none does. -/
def extractSpecFold : List (Option (List (Nat × Page))) →
    Except Str (List (Nat × Page))
  | [] => .error extractErrMsg
  | o :: rest =>
    match o with
    | some r =>
      if r.any (fun e => !(stripL e.2.full_text).isEmpty) then .ok r
      else extractSpecFold rest
    | none => extractSpecFold rest

/-- Modelled from the spec (§4.1): the ordered applicable-strategy list. -/
def extractSpec (r1 r2 : List (Nat × Page)) (ocrAvailable : Bool)
    (r3 : Option (List (Nat × Page))) : Except Str (List (Nat × Page)) :=
  extractSpecFold ([some r1, some r2] ++ if ocrAvailable then [r3] else [])

/-! ### `qc.py` and the end-to-end wiring of `main.py` -/

/-- The raw text the quality controller scans:
`'\n'.join(raw_text_by_page.values())` over the per-page `full_text`
(in page-map insertion order, as `main.py` builds it). -/
def qcRawText (pm : List (Nat × Page)) : Str :=
  joinWith ['\n'] (pm.map (fun e => e.2.full_text))

/-- The final `cleaned.txt` contents: the assembled blocks of the cleaned
pages joined by blank lines (`main.py`, lines 61–65). -/
def pipelineFinalText (rawPm : List (Nat × Page)) : Str :=
  joinWith "\n\n".data (assembleTexts (cleanText rawPm))

/-- `raw_set - cleaned_set` for one anchor category, as the sublist of raw
anchors absent from the final text's anchors (empty exactly when the set
difference is empty). -/
def missingFrom (raw final : List Str) : List Str :=
  raw.filter (fun a => !final.contains a)

/-- The four per-category `raw - final` anchor differences the QC report is
built from (`extract_anchors_from_raw`, `extract_anchors_from_cleaned`,
`find_missing_anchors`). -/
def qcMissing (rawPm : List (Nat × Page)) :
    List Str × List Str × List Str × List Str :=
  let rawT := qcRawText rawPm
  let finalT := pipelineFinalText rawPm
  (missingFrom (findArticles rawT) (findArticles finalT),
   missingFrom (findQcTitles rawT) (findQcTitles finalT),
   missingFrom (findPhValues rawT) (findPhValues finalT),
   missingFrom (findSubheadings rawT) (findSubheadings finalT))

/-! ### Characterization helpers used by the theorems -/

/-- Keep-the-strictly-longer-Russian collision rule of `_build_title_lookup`,
as a fold step over occurrences sharing one key (ties keep the earlier
occurrence). -/
def pickLongerRu (cur : Option (Str × Str)) (n : Str × Str) : Option (Str × Str) :=
  match cur with
  | none => some n
  | some c => if n.1.length > c.1.length then some n else some c

/-- The first occurrence with maximal Russian length in a list. -/
def firstLongestRu (l : List (Str × Str)) : Option (Str × Str) :=
  l.foldl pickLongerRu none

/-- An entry the fuzzy loop of `_resolve_full_title` can update the best
match from: its key starts with the candidate or contains it (the separate
short-candidate branch repeats the `startswith` test and is subsumed). -/
def matchingEntry (cand : Str) (e : Str × (Str × Str)) : Bool :=
  startsWithL e.1 cand || containsSub e.1 cand

/-- The key length the fuzzy accumulator tracks (`best_match_length`,
initially `0`). -/
def keyLenOpt : Option (Str × (Str × Str)) → Nat
  | none => 0
  | some e => e.1.length

/-- The strictly-longer-key update of the fuzzy loop, over full entries. -/
def pickLongerKey (cur : Option (Str × (Str × Str))) (e : Str × (Str × Str)) :
    Option (Str × (Str × Str)) :=
  if e.1.length > keyLenOpt cur then some e else cur

/-- The first entry with maximal (positive) key length in a list. -/
def firstLongestKey (l : List (Str × (Str × Str))) : Option (Str × (Str × Str)) :=
  l.foldl pickLongerKey none

/-- A hyphen immediately followed by a whitespace character occurs in the
text — the line-wrap boundary shape every `fix_hyphenation` pattern
requires. -/
def hasHyphenWs : List Char → Bool
  | a :: b :: rest => (a = '-' && pyIsSpace b) || hasHyphenWs (b :: rest)
  | _ => false

/-- No two adjacent lines are both blank. -/
def noTwoAdjacentBlank : List Str → Bool
  | a :: b :: rest => (!(isBlankLine a && isBlankLine b)) && noTwoAdjacentBlank (b :: rest)
  | _ => true

/-- The first and last lines (of a non-empty line list) are not blank. -/
def firstLastNonBlank (ls : List Str) : Bool :=
  match ls with
  | [] => true
  | a :: _ => !isBlankLine a && !isBlankLine (ls.getLastD [])

/-- The product-block text as claim C9 words it: the resolved title, the
composition captured from the block's first page, and the combined cleaned
body, all parts separated by blank lines, blank lines normalized. -/
def specProductBlockText (tbl : List (Str × (Str × Str))) (title : Str)
    (pageIdxs : List Nat) (pm : List (Nat × Page)) : Str :=
  let pageTexts :=
    (pageIdxs.map (fun n => (pageAt pm n).full_text)).filter
      (fun t => !(stripL t).isEmpty)
  let combined := joinWith "\n\n".data pageTexts
  let fullTitle := resolveFullTitle tbl title combined
  let body := cleanBlock combined
  let comp := stripL (pageAt pm (pageIdxs.headD 0)).composition
  joinWith "\n\n".data
    ([fullTitle] ++ (if !comp.isEmpty then [comp] else []) ++
      (if !(stripL body).isEmpty then [body] else []))

/-- The product-block text as amended: the resolved title; then, when the
first member page with non-empty body text carries a composition, that
composition on the next line (a single newline, not a blank line); then a
blank line and the combined body of the member pages with non-empty text,
with blank lines normalized; the bare header when the normalized body is
empty. -/
def amendedProductBlockText (tbl : List (Str × (Str × Str))) (title : Str)
    (pageIdxs : List Nat) (pm : List (Nat × Page)) : Str :=
  let pageTexts :=
    (pageIdxs.map (fun n => (pageAt pm n).full_text)).filter
      (fun t => !(stripL t).isEmpty)
  let body := cleanBlock (joinWith "\n\n".data pageTexts)
  let comp : Str :=
    match (pageIdxs.map (fun n => pageAt pm n)).find?
        (fun p => !(stripL p.full_text).isEmpty) with
    | some p => stripL p.composition
    | none => []
  let fullTitle := resolveFullTitle tbl title (joinWith "\n\n".data pageTexts)
  let header := if !comp.isEmpty then fullTitle ++ '\n' :: comp else fullTitle
  if !(stripL body).isEmpty then header ++ "\n\n".data ++ body else header

/-! ### Concrete inputs used by counterexamples and witnesses -/

/-- One raw page whose article code is split across a line break: the digits
form a standalone number line that the cleaner removes. -/
def pmArticleSplit : List (Nat × Page) :=
  [(0, ⟨"Артикул\n123".data, [], [], []⟩)]

/-- The three-page end-to-end scenario of spec §8. -/
def pmScenario : List (Nat × Page) :=
  [(1, ⟨"Артикул 111".data, [], "Крем / Cream".data, []⟩),
   (2, ⟨"pH 5.5".data, [], [], []⟩),
   (3, ⟨"Артикул 222".data, [], "Тоник / Tonic".data, []⟩)]

/-- Two bilingual occurrences normalizing to the same key with Russian
strings of equal length: the first is kept. -/
def pmTie : List (Nat × Page) :=
  [(0, ⟨"Абв / Milk\nГде / Milk".data, [], [], []⟩)]

/-- Two consecutive pages with different non-empty normalized titles. -/
def pmTwoTitles : List (Nat × Page) :=
  [(0, ⟨"A.".data, [], "а".data, []⟩),
   (1, ⟨"B.".data, [], "б".data, []⟩)]

/-- A page map with two section pages before the first titled page. -/
def pmSection : List (Nat × Page) :=
  [(0, ⟨"Интро.".data, [], [], []⟩),
   (1, ⟨"Ещё.".data, [], "  ".data, []⟩),
   (2, ⟨"Тело.".data, [], "т".data, []⟩)]

/-- A product whose first page has empty body text but a composition: the
rendered block takes the composition of the second page and separates the
header parts with a single newline. -/
def pmCompShift : List (Nat × Page) :=
  [(1, ⟨[], [], "т".data, "C1".data⟩),
   (2, ⟨"X.".data, [], [], "C2".data⟩)]

/-! ## Theorems -/

theorem hasHyphenWs_tail {c : Char} {l : List Char}
    (h : hasHyphenWs (c :: l) = false) : hasHyphenWs l = false := by
  cases l with
  | nil => rfl
  | cons b r =>
    unfold hasHyphenWs at h
    exact (Bool.or_eq_false_iff.mp h).2

theorem hasHyphenWs_append {l₁ l₂ : List Char}
    (h : hasHyphenWs (l₁ ++ l₂) = false) : hasHyphenWs l₂ = false := by
  induction l₁ with
  | nil => exact h
  | cons a r ih =>
    rw [List.cons_append] at h
    exact ih (hasHyphenWs_tail h)

theorem matchHyphWs_none (l : Str) (h : hasHyphenWs l = false) :
    matchHyphWs l = none := by
  have hsplit : l.takeWhile isWordChar ++ l.dropWhile isWordChar = l :=
    List.takeWhile_append_dropWhile isWordChar l
  have hsuf : hasHyphenWs (l.dropWhile isWordChar) = false := by
    apply @hasHyphenWs_append (l.takeWhile isWordChar) (l.dropWhile isWordChar)
    rw [hsplit]; exact h
  unfold matchHyphWs
  by_cases hw : (l.takeWhile isWordChar).isEmpty
  · simp [hw]
  · simp only [hw, Bool.false_eq_true, if_false]
    cases hdw : l.dropWhile isWordChar with
    | nil => rfl
    | cons a r2 =>
      rw [hdw] at hsuf
      by_cases ha : a = '-'
      · subst ha
        cases r2 with
        | nil => simp
        | cons b r3 =>
          have hb : pyIsSpace b = false := by
            unfold hasHyphenWs at hsuf
            have := (Bool.or_eq_false_iff.mp hsuf).1
            simpa using this
          simp [List.takeWhile, hb]
      · cases a <;> simp_all

theorem matchHyphNl_none (l : Str) (h : hasHyphenWs l = false) :
    matchHyphNl l = none := by
  have hsplit : l.takeWhile isWordChar ++ l.dropWhile isWordChar = l :=
    List.takeWhile_append_dropWhile isWordChar l
  have hsuf : hasHyphenWs (l.dropWhile isWordChar) = false := by
    apply @hasHyphenWs_append (l.takeWhile isWordChar) (l.dropWhile isWordChar)
    rw [hsplit]; exact h
  unfold matchHyphNl
  by_cases hw : (l.takeWhile isWordChar).isEmpty
  · simp [hw]
  · simp only [hw, Bool.false_eq_true, if_false]
    cases hdw : l.dropWhile isWordChar with
    | nil => rfl
    | cons a r2 =>
      rw [hdw] at hsuf
      by_cases ha : a = '-'
      · subst ha
        cases r2 with
        | nil => simp
        | cons b r3 =>
          by_cases hb : b = '\n'
          · exfalso
            subst hb
            unfold hasHyphenWs at hsuf
            simp [pyIsSpace] at hsuf
          · cases b <;> simp_all
      · cases a <;> simp_all

theorem matchLetterHyphWs_none (l : Str) (h : hasHyphenWs l = false) :
    matchLetterHyphWs l = none := by
  unfold matchLetterHyphWs
  cases l with
  | nil => rfl
  | cons a l1 =>
    cases l1 with
    | nil => cases a <;> rfl
    | cons c r2 =>
      by_cases hc : c = '-'
      · subst hc
        have hsuf : hasHyphenWs ('-' :: r2) = false := hasHyphenWs_tail h
        cases r2 with
        | nil => simp
        | cons b r3 =>
          have hb : pyIsSpace b = false := by
            unfold hasHyphenWs at hsuf
            have := (Bool.or_eq_false_iff.mp hsuf).1
            simpa using this
          simp [List.takeWhile, hb]
      · cases c <;> simp_all

theorem matchLetterHyphNl_none (l : Str) (h : hasHyphenWs l = false) :
    matchLetterHyphNl l = none := by
  unfold matchLetterHyphNl
  cases l with
  | nil => rfl
  | cons a l1 =>
    cases l1 with
    | nil => cases a <;> rfl
    | cons c r2 =>
      by_cases hc : c = '-'
      · subst hc
        have hsuf : hasHyphenWs ('-' :: r2) = false := hasHyphenWs_tail h
        cases r2 with
        | nil => simp
        | cons b r3 =>
          by_cases hb : b = '\n'
          · exfalso
            subst hb
            unfold hasHyphenWs at hsuf
            simp [pyIsSpace] at hsuf
          · cases b <;> simp_all
      · cases c <;> simp_all

theorem reSubScan_eq_self (matchAt : Str → Option (Str × Str))
    (hM : ∀ l, hasHyphenWs l = false → matchAt l = none) :
    ∀ (fuel : Nat) (l : Str), hasHyphenWs l = false → reSubScan matchAt fuel l = l := by
  intro fuel
  induction fuel with
  | zero => intro l _; rfl
  | succ n ih =>
    intro l h
    cases l with
    | nil => rfl
    | cons c cs =>
      unfold reSubScan
      rw [hM _ h, ih cs (hasHyphenWs_tail h)]

/-- C7: the de-hyphenation rule joins `"гидро- лизованный"` into
`"гидролизованный"` and `"экстра-\nкт"` into `"экстракт"`, and it leaves
any text unchanged in which no hyphen is immediately followed by a
whitespace character (the line-wrap boundary shape all four substitution
patterns require), so compound words such as `"24-часовой"` survive. -/
theorem fix_hyphenation_wrap_only :
    fixHyphenation "гидро- лизованный".data = "гидролизованный".data ∧
    fixHyphenation "экстра-\nкт".data = "экстракт".data ∧
    ∀ t : Str, hasHyphenWs t = false → fixHyphenation t = t := by
  refine ⟨by decide, by decide, ?_⟩
  intro t h
  simp only [fixHyphenation, reSub]
  rw [reSubScan_eq_self matchHyphWs matchHyphWs_none _ _ h]
  rw [reSubScan_eq_self matchHyphNl matchHyphNl_none _ _ h]
  rw [reSubScan_eq_self matchLetterHyphWs matchLetterHyphWs_none _ _ h]
  rw [reSubScan_eq_self matchLetterHyphNl matchLetterHyphNl_none _ _ h]

theorem fix_hyphenation_wrap_only_witness :
    hasHyphenWs "24-часовой".data = false ∧
    fixHyphenation "24-часовой".data = "24-часовой".data :=
  ⟨by decide, fix_hyphenation_wrap_only.2.2 "24-часовой".data (by decide)⟩

/-- C6: cleaning returns a page map with the same page numbers in the same
positions; for every page the `top_left_title_raw`, `top_left_title_norm`
and `composition` fields pass through unchanged, and `full_text` becomes
exactly the cleaned full text. -/
theorem clean_text_frame (pm : List (Nat × Page)) :
    (cleanText pm).map Prod.fst = pm.map Prod.fst ∧
    ∀ i : Nat,
      ((cleanText pm)[i]?).map (fun e =>
          (e.1, e.2.top_left_title_raw, e.2.top_left_title_norm, e.2.composition)) =
        (pm[i]?).map (fun e =>
          (e.1, e.2.top_left_title_raw, e.2.top_left_title_norm, e.2.composition)) ∧
      ((cleanText pm)[i]?).map (fun e => e.2.full_text) =
        (pm[i]?).map (fun e => cleanFullText e.2.full_text) := by
  refine ⟨?_, fun i => ⟨?_, ?_⟩⟩
  · simp only [cleanText, List.map_map]
    rfl
  · cases h : pm[i]? with
    | none => simp only [cleanText, List.getElem?_map, h, Option.map_none']
    | some e => simp only [cleanText, List.getElem?_map, h, Option.map_some']
  · cases h : pm[i]? with
    | none => simp only [cleanText, List.getElem?_map, h, Option.map_none']
    | some e => simp only [cleanText, List.getElem?_map, h, Option.map_some']

theorem strategySuccess_eq_any (r : List (Nat × Page)) :
    r.any (fun e => !(stripL e.2.full_text).isEmpty) = strategySuccess r := by
  cases r <;> rfl

/-- C4: `extract` realises the ordered strategy list of the spec — PyMuPDF,
then pdfplumber, then OCR only when available — moving on exactly when the
current attempt produced no page with non-empty body text, and failing with
the fatal message when no applicable strategy did; and the success test is
exactly "some page has non-empty stripped body text". -/
theorem extract_strategy_fallback :
    (∀ (r1 r2 : List (Nat × Page)) (av : Bool) (r3 : Option (List (Nat × Page))),
      extractPdf r1 r2 av r3 = extractSpec r1 r2 av r3) ∧
    (∀ r : List (Nat × Page),
      strategySuccess r = true ↔ ∃ e ∈ r, (stripL e.2.full_text).isEmpty = false) := by
  constructor
  · intro r1 r2 av r3
    simp only [extractPdf, extractSpec, List.cons_append, List.nil_append,
      extractSpecFold, strategySuccess_eq_any]
    by_cases h1 : strategySuccess r1
    · simp [h1]
    · simp only [h1, Bool.false_eq_true, if_false]
      by_cases h2 : strategySuccess r2
      · simp [h2]
      · simp only [h2, Bool.false_eq_true, if_false]
        cases av with
        | false => simp [extractSpecFold]
        | true =>
          cases r3 with
          | none => simp [extractSpecFold]
          | some r =>
            simp only [extractSpecFold, strategySuccess_eq_any]
            by_cases h3 : strategySuccess r
            · simp [h3]
            · simp [h3, extractSpecFold]
  · intro r
    cases r with
    | nil => simp [strategySuccess]
    | cons a l =>
      simp [strategySuccess, List.any_eq_true, Bool.not_eq_true']

theorem splitLines_ne_nil (t : Str) : splitLines t ≠ [] := by
  cases t with
  | nil => simp [splitLines]
  | cons c cs =>
    unfold splitLines
    by_cases hc : c = '\n'
    · simp [hc]
    · simp only [hc, if_false]
      cases splitLines cs <;> simp

/-- C10: when the very first line matches the article pattern, the Python
truthiness test `if article_line_idx:` discards the found index 0, so the
scan-upward branch is skipped and `_find_english_title_in_text` returns
exactly what the in-text bilingual pattern search gives (the stripped
English group of the first match, or nothing). -/
theorem english_title_skips_line_zero (text : Str)
    (h : lineHasArticle ((splitLines text).headD []) = true) :
    findEnglishTitleInText text = (searchLazyTitle text).map (fun g => stripL g.2) := by
  unfold findEnglishTitleInText
  cases hsp : splitLines text with
  | nil => exact absurd hsp (splitLines_ne_nil text)
  | cons l0 rest =>
    rw [hsp] at h
    simp only [List.headD_cons] at h
    simp [firstArticleIdx, findIdxFrom, h]

theorem english_title_skips_line_zero_witness :
    lineHasArticle ((splitLines "Артикул 7\nКрем / Cream".data).headD []) = true ∧
    findEnglishTitleInText "Артикул 7\nКрем / Cream".data = some "Cr".data :=
  ⟨by decide, by
    rw [english_title_skips_line_zero "Артикул 7\nКрем / Cream".data (by decide)]
    decide⟩

/-- C1 as stated is false: the QC raw-minus-final anchor difference is not
empty for every page map.  On a page whose article code is split as
`"Артикул\n123"`, the raw text yields the article anchor `123`, but the
cleaner removes the standalone digit line as a page number, so the anchor is
absent from the final text. -/
theorem qc_anchor_completeness_counterexample :
    ¬ (∀ pm : List (Nat × Page),
        qcMissing pm = ([], [], [], [])) := by
  intro h
  have h0 := h pmArticleSplit
  have : (qcMissing pmArticleSplit).1 = ["123".data] := by decide
  rw [h0] at this
  exact absurd this (by decide)

/-- C1 amended: the QC pass computes the per-category difference between raw
and final anchors; it is not empty for every page map (cleaning can destroy
an anchor split across lines), but on inputs whose anchors survive cleaning
and assembly — such as the spec's three-page end-to-end scenario, which has
two article anchors and one pH anchor in its raw text — every category's
difference is empty. -/
theorem qc_anchor_scenario_complete :
    qcMissing pmScenario = ([], [], [], []) ∧
    findArticles (qcRawText pmScenario) = ["111".data, "222".data] ∧
    findPhValues (qcRawText pmScenario) = ["pH 5.5".data] := by
  refine ⟨by decide, by decide, by decide⟩

theorem lookupAssoc_append_single {α : Type} (tbl : List (Str × α)) (key k : Str)
    (v : α) :
    lookupAssoc (tbl ++ [(key, v)]) k =
      match lookupAssoc tbl k with
      | some w => some w
      | none => if key = k then some v else none := by
  induction tbl with
  | nil => simp [lookupAssoc]
  | cons e rest ih =>
    by_cases he : e.1 = k
    · simp [lookupAssoc, he]
    · simp only [List.cons_append, lookupAssoc, he, if_false]
      exact ih

theorem lookupAssoc_update_self {α : Type} (tbl : List (Str × α)) (k : Str)
    (v cur : α) (h : lookupAssoc tbl k = some cur) :
    lookupAssoc (updateAssoc tbl k v) k = some v := by
  induction tbl with
  | nil => simp [lookupAssoc] at h
  | cons e rest ih =>
    by_cases he : e.1 = k
    · simp [updateAssoc, lookupAssoc, he]
    · simp only [lookupAssoc, he, if_false] at h
      simp only [updateAssoc, he, if_false, lookupAssoc]
      exact ih h

theorem lookupAssoc_update_other {α : Type} (tbl : List (Str × α)) (k k' : Str)
    (v : α) (h : k' ≠ k) :
    lookupAssoc (updateAssoc tbl k v) k' = lookupAssoc tbl k' := by
  induction tbl with
  | nil => simp [updateAssoc]
  | cons e rest ih =>
    by_cases he : e.1 = k
    · have hk' : ¬ k = k' := fun hh => h (Eq.symm hh)
      have he' : ¬ e.1 = k' := by rw [he]; exact hk'
      simp [updateAssoc, lookupAssoc, he, hk', he']
    · by_cases he' : e.1 = k'
      · simp [updateAssoc, lookupAssoc, he, he', h]
      · simp [updateAssoc, lookupAssoc, he, he', ih]

theorem lookupAssoc_insertOcc (tbl : List (Str × (Str × Str))) (occ : Str × Str)
    (k : Str) :
    lookupAssoc (insertOcc tbl occ) k =
      if lowerStr occ.2 = k then pickLongerRu (lookupAssoc tbl k) occ
      else lookupAssoc tbl k := by
  simp only [insertOcc]
  cases h : lookupAssoc tbl (lowerStr occ.2) with
  | none =>
    rw [lookupAssoc_append_single]
    by_cases hk : lowerStr occ.2 = k
    · subst hk
      rw [h]
      simp [pickLongerRu]
    · simp only [hk, if_false]
      cases lookupAssoc tbl k <;> simp [hk]
  | some cur =>
    change lookupAssoc
      (if occ.1.length > cur.1.length then updateAssoc tbl (lowerStr occ.2) occ
        else tbl) k = _
    by_cases hlen : cur.1.length < occ.1.length
    · rw [if_pos hlen]
      by_cases hk : lowerStr occ.2 = k
      · subst hk
        rw [lookupAssoc_update_self tbl _ occ cur h, h]
        simp [pickLongerRu, hlen]
      · rw [lookupAssoc_update_other tbl _ k occ (fun hh => hk (Eq.symm hh))]
        simp [hk]
    · rw [if_neg hlen]
      by_cases hk : lowerStr occ.2 = k
      · subst hk
        rw [h]
        simp [pickLongerRu, hlen]
      · simp [hk]

theorem lookupAssoc_foldl_insertOcc (occs : List (Str × Str))
    (tbl : List (Str × (Str × Str))) (k : Str) :
    lookupAssoc (occs.foldl insertOcc tbl) k =
      ((occs.filter (fun o => lowerStr o.2 = k)).foldl pickLongerRu
        (lookupAssoc tbl k)) := by
  induction occs generalizing tbl with
  | nil => rfl
  | cons o rest ih =>
    rw [List.foldl_cons, ih]
    by_cases hk : lowerStr o.2 = k
    · simp [List.filter_cons, hk, lookupAssoc_insertOcc]
    · simp [List.filter_cons, hk, lookupAssoc_insertOcc]

theorem foldl_pickLongerRu_spec (l : List (Str × Str)) :
    ∀ (cur : Option (Str × Str)) (v : Str × Str),
      l.foldl pickLongerRu cur = some v →
      (cur = some v ∨ v ∈ l) ∧ (∀ o ∈ l, o.1.length ≤ v.1.length) ∧
      (∀ c, cur = some c → c.1.length ≤ v.1.length) := by
  induction l with
  | nil =>
    intro cur v h
    refine ⟨Or.inl h, by simp, ?_⟩
    intro c hc
    rw [hc] at h
    cases h
    exact Nat.le_refl _
  | cons o rest ih =>
    intro cur v h
    rw [List.foldl_cons] at h
    obtain ⟨h1, h2, h3⟩ := ih (pickLongerRu cur o) v h
    have hstep : ∀ c, pickLongerRu cur o = some c →
        o.1.length ≤ c.1.length ∧ ∀ c', cur = some c' → c'.1.length ≤ c.1.length := by
      intro c hc
      cases cur with
      | none =>
        simp only [pickLongerRu] at hc
        cases hc
        exact ⟨Nat.le_refl _, by simp⟩
      | some c0 =>
        simp only [pickLongerRu] at hc
        by_cases hlen : o.1.length > c0.1.length
        · rw [if_pos hlen] at hc
          cases hc
          exact ⟨Nat.le_refl _, by intro c' hc'; cases hc'; exact Nat.le_of_lt hlen⟩
        · rw [if_neg hlen] at hc
          cases hc
          exact ⟨Nat.le_of_not_lt hlen, by intro c' hc'; cases hc'; exact Nat.le_refl _⟩
    have hsome : ∃ c, pickLongerRu cur o = some c := by
      cases cur with
      | none => exact ⟨o, rfl⟩
      | some c0 =>
        simp only [pickLongerRu]
        by_cases hlen : o.1.length > c0.1.length
        · exact ⟨o, by rw [if_pos hlen]⟩
        · exact ⟨c0, by rw [if_neg hlen]⟩
    obtain ⟨c, hc⟩ := hsome
    have hcv : c.1.length ≤ v.1.length := h3 c hc
    obtain ⟨hoc, hcur⟩ := hstep c hc
    refine ⟨?_, ?_, ?_⟩
    · rcases h1 with h1 | h1
      · rw [hc] at h1
        cases cur with
        | none =>
          simp only [pickLongerRu] at hc
          cases hc
          cases h1
          exact Or.inr (List.mem_cons_self _ _)
        | some c0 =>
          simp only [pickLongerRu] at hc
          by_cases hlen : o.1.length > c0.1.length
          · rw [if_pos hlen] at hc
            cases hc
            cases h1
            exact Or.inr (List.mem_cons_self _ _)
          · rw [if_neg hlen] at hc
            cases hc
            cases h1
            exact Or.inl rfl
      · exact Or.inr (List.mem_cons_of_mem _ h1)
    · intro o' ho'
      rcases List.mem_cons.mp ho' with ho' | ho'
      · subst ho'
        exact Nat.le_trans hoc hcv
      · exact h2 o' ho'
    · intro c' hc'
      exact Nat.le_trans (hcur c' hc') hcv

/-- C5: the title-lookup builder depends only on the first five pages in
ascending page order; the value stored at a key is the fold, over the
occurrences whose lowercased English span equals that key, of the
keep-the-strictly-longer-Russian rule; consequently every stored entry is an
occurrence keyed by its own lowercased English span whose Russian length is
maximal among the occurrences of that key; and on the equal-length tie of
`pmTie` the first-seen occurrence is kept. -/
theorem title_lookup_longest_russian :
    (∀ pm₁ pm₂ : List (Nat × Page),
      (sortPages pm₁).take 5 = (sortPages pm₂).take 5 →
      buildTitleLookup pm₁ = buildTitleLookup pm₂) ∧
    (∀ (pm : List (Nat × Page)) (k : Str),
      lookupAssoc (buildTitleLookup pm) k =
        firstLongestRu ((titleOccurrences pm).filter (fun o => lowerStr o.2 = k))) ∧
    (∀ (pm : List (Nat × Page)) (k : Str) (v : Str × Str),
      lookupAssoc (buildTitleLookup pm) k = some v →
        v ∈ titleOccurrences pm ∧ lowerStr v.2 = k ∧
        ∀ o ∈ titleOccurrences pm, lowerStr o.2 = k → o.1.length ≤ v.1.length) ∧
    lookupAssoc (buildTitleLookup pmTie) "mi".data = some ("Абв".data, "Mi".data) := by
  have hchar : ∀ (pm : List (Nat × Page)) (k : Str),
      lookupAssoc (buildTitleLookup pm) k =
        firstLongestRu ((titleOccurrences pm).filter (fun o => lowerStr o.2 = k)) := by
    intro pm k
    unfold buildTitleLookup firstLongestRu
    rw [lookupAssoc_foldl_insertOcc]
    rfl
  refine ⟨?_, hchar, ?_, by decide⟩
  · intro pm₁ pm₂ h
    unfold buildTitleLookup titleOccurrences
    rw [h]
  · intro pm k v h
    rw [hchar pm k] at h
    obtain ⟨h1, h2, _⟩ := foldl_pickLongerRu_spec _ none v h
    rcases h1 with h1 | h1
    · cases h1
    · obtain ⟨hmem, hkey⟩ := List.mem_filter.mp h1
      refine ⟨hmem, by simpa using hkey, ?_⟩
      intro o ho hko
      exact h2 o (List.mem_filter.mpr ⟨ho, by simpa using hko⟩)

theorem title_lookup_longest_russian_witness :
    buildTitleLookup
        [(0, ⟨"Аб / Qq".data, [], [], []⟩), (1, ⟨[], [], [], []⟩),
         (2, ⟨[], [], [], []⟩), (3, ⟨[], [], [], []⟩), (4, ⟨[], [], [], []⟩),
         (5, ⟨"Вгд / Rr".data, [], [], []⟩)] =
      buildTitleLookup
        [(0, ⟨"Аб / Qq".data, [], [], []⟩), (1, ⟨[], [], [], []⟩),
         (2, ⟨[], [], [], []⟩), (3, ⟨[], [], [], []⟩), (4, ⟨[], [], [], []⟩),
         (6, ⟨"Еж / Ss".data, [], [], []⟩)] ∧
    ("Абв".data, "Mi".data) ∈ titleOccurrences pmTie ∧
    ∀ o ∈ titleOccurrences pmTie, lowerStr o.2 = "mi".data →
      o.1.length ≤ ("Абв".data : Str).length := by
  refine ⟨title_lookup_longest_russian.1 _ _ (by decide), ?_, ?_⟩
  · exact (title_lookup_longest_russian.2.2.1 pmTie "mi".data
      ("Абв".data, "Mi".data) (by decide)).1
  · exact (title_lookup_longest_russian.2.2.1 pmTie "mi".data
      ("Абв".data, "Mi".data) (by decide)).2.2

theorem fuzzyStep_eq (cand : Str) (acc : Option (Str × Str) × Nat)
    (e : Str × (Str × Str)) :
    fuzzyStep cand acc e =
      if matchingEntry cand e then
        (if e.1.length > acc.2 then (some e.2, e.1.length) else acc)
      else acc := by
  unfold fuzzyStep matchingEntry
  by_cases hsw : startsWithL e.1 cand
  · simp [hsw]
  · by_cases hct : containsSub e.1 cand
    · simp [hsw, hct]
    · simp [hsw, hct]

theorem foldl_fuzzyStep_filter (cand : Str) (tbl : List (Str × (Str × Str))) :
    ∀ acc, tbl.foldl (fuzzyStep cand) acc =
      (tbl.filter (matchingEntry cand)).foldl
        (fun acc e => if e.1.length > acc.2 then (some e.2, e.1.length) else acc)
        acc := by
  induction tbl with
  | nil => intro acc; rfl
  | cons e rest ih =>
    intro acc
    rw [List.foldl_cons, fuzzyStep_eq, List.filter_cons]
    by_cases hm : matchingEntry cand e
    · simp only [hm, if_true]
      rw [ih, List.foldl_cons]
    · simp only [hm, Bool.false_eq_true, if_false]
      exact ih acc

theorem foldl_bestStep_proj (l : List (Str × (Str × Str))) :
    ∀ cur : Option (Str × (Str × Str)),
      l.foldl (fun acc e => if e.1.length > acc.2 then (some e.2, e.1.length) else acc)
        (cur.map (fun e => e.2), keyLenOpt cur) =
      ((l.foldl pickLongerKey cur).map (fun e => e.2),
        keyLenOpt (l.foldl pickLongerKey cur)) := by
  induction l with
  | nil => intro cur; rfl
  | cons e rest ih =>
    intro cur
    rw [List.foldl_cons, List.foldl_cons]
    by_cases hlen : keyLenOpt cur < e.1.length
    · have h2 : pickLongerKey cur e = some e := by
        unfold pickLongerKey
        rw [if_pos hlen]
      have h1 : (if e.1.length > (Option.map (fun e => e.2) cur, keyLenOpt cur).2
          then ((some e.2 : Option (Str × Str)), e.1.length)
          else (Option.map (fun e => e.2) cur, keyLenOpt cur)) =
          (Option.map (fun e => e.2) (some e), keyLenOpt (some e)) := by
        show (if e.1.length > keyLenOpt cur then _ else _) = _
        rw [if_pos hlen]
        rfl
      rw [h1, h2, ih]
    · have h2 : pickLongerKey cur e = cur := by
        unfold pickLongerKey
        rw [if_neg hlen]
      have h1 : (if e.1.length > (Option.map (fun e => e.2) cur, keyLenOpt cur).2
          then ((some e.2 : Option (Str × Str)), e.1.length)
          else (Option.map (fun e => e.2) cur, keyLenOpt cur)) =
          (Option.map (fun e => e.2) cur, keyLenOpt cur) := by
        show (if e.1.length > keyLenOpt cur then _ else _) = _
        rw [if_neg hlen]
      rw [h1, h2, ih]

theorem fuzzyBest_eq_firstLongestKey (cand : Str) (tbl : List (Str × (Str × Str))) :
    fuzzyBest cand tbl =
      (firstLongestKey (tbl.filter (matchingEntry cand))).map (fun e => e.2) := by
  unfold fuzzyBest firstLongestKey
  rw [foldl_fuzzyStep_filter]
  have h := foldl_bestStep_proj (tbl.filter (matchingEntry cand)) none
  simp only [Option.map_none', keyLenOpt] at h
  rw [h]

theorem foldl_pickLongerKey_spec (l : List (Str × (Str × Str))) :
    ∀ (cur : Option (Str × (Str × Str))) (v : Str × (Str × Str)),
      l.foldl pickLongerKey cur = some v →
      (cur = some v ∨ v ∈ l) ∧ (∀ e ∈ l, e.1.length ≤ v.1.length) ∧
      keyLenOpt cur ≤ v.1.length := by
  induction l with
  | nil =>
    intro cur v h
    simp only [List.foldl_nil] at h
    refine ⟨Or.inl h, by simp, ?_⟩
    rw [h]
    exact Nat.le_refl _
  | cons e rest ih =>
    intro cur v h
    rw [List.foldl_cons] at h
    obtain ⟨h1, h2, h3⟩ := ih (pickLongerKey cur e) v h
    have hcurle : keyLenOpt cur ≤ keyLenOpt (pickLongerKey cur e) ∧
        e.1.length ≤ keyLenOpt (pickLongerKey cur e) := by
      unfold pickLongerKey
      by_cases hlen : keyLenOpt cur < e.1.length
      · rw [if_pos hlen]
        exact ⟨Nat.le_of_lt hlen, Nat.le_refl _⟩
      · rw [if_neg hlen]
        exact ⟨Nat.le_refl _, Nat.le_of_not_lt hlen⟩
    refine ⟨?_, ?_, Nat.le_trans hcurle.1 h3⟩
    · rcases h1 with h1 | h1
      · unfold pickLongerKey at h1
        by_cases hlen : keyLenOpt cur < e.1.length
        · rw [if_pos hlen] at h1
          cases h1
          exact Or.inr (List.mem_cons_self _ _)
        · rw [if_neg hlen] at h1
          exact Or.inl h1
      · exact Or.inr (List.mem_cons_of_mem _ h1)
    · intro e' he'
      rcases List.mem_cons.mp he' with he' | he'
      · subst he'
        exact Nat.le_trans hcurle.2 h3
      · exact h2 e' he'

/-- C3 as stated is false: after an exact lookup miss, an entry whose key
starts with the candidate is not preferred over an entry whose key merely
contains it — the loop only compares key lengths.  For candidate `cleans`
against keys `cleansx` (a prefix match) and `aacleansbb` (substring only,
but longer), resolution returns the substring entry's value. -/
theorem fuzzy_prefix_preference_counterexample :
    ¬ (∀ (cand : Str) (tbl : List (Str × (Str × Str))) (v : Str × Str),
        lookupAssoc tbl cand = none →
        (∃ e ∈ tbl, startsWithL e.1 cand = true) →
        lookupTitle tbl cand = some v →
        ∃ e ∈ tbl, startsWithL e.1 cand = true ∧ e.2 = v) := by
  intro h
  obtain ⟨e, hmem, hsw, hv⟩ := h "cleans".data
    [("cleansx".data, ("r1".data, "e1".data)),
     ("aacleansbb".data, ("r2".data, "e2".data))]
    ("r2".data, "e2".data) (by decide)
    ⟨("cleansx".data, ("r1".data, "e1".data)), by decide, by decide⟩
    (by decide)
  simp only [List.mem_cons, List.not_mem_nil, or_false] at hmem
  rcases hmem with rfl | rfl
  · exact absurd hv (by decide)
  · exact absurd hsw (by decide)

/-- C3 amended: after the exact case-insensitive key lookup, the fuzzy stage
selects — among the entries whose key starts with the candidate or contains
it as a substring, with no preference between the two kinds and with the
short-candidate branch unreachable (it repeats the prefix test) — the first
entry of maximal key length; in particular `cleans` resolves against a table
containing `cleansing milk`, and with both `milk` and `cleansing milk`
matching a candidate by substring, the longer key wins. -/
theorem fuzzy_longest_key_selected :
    (∀ (cand : Str) (tbl : List (Str × (Str × Str))),
      lookupTitle tbl cand =
        match lookupAssoc tbl cand with
        | some v => some v
        | none => (firstLongestKey (tbl.filter (matchingEntry cand))).map
            (fun e => e.2)) ∧
    (∀ (cand : Str) (tbl : List (Str × (Str × Str))) (v : Str × Str),
      lookupAssoc tbl cand = none → lookupTitle tbl cand = some v →
      ∃ e ∈ tbl, matchingEntry cand e = true ∧ e.2 = v ∧
        ∀ e2 ∈ tbl, matchingEntry cand e2 = true → e2.1.length ≤ e.1.length) ∧
    lookupTitle [("cleansing milk".data, ("rCM".data, "eCM".data))] "cleans".data =
      some ("rCM".data, "eCM".data) ∧
    lookupTitle [("milk".data, ("r1".data, "e1".data)),
        ("cleansing milk".data, ("r2".data, "e2".data))] "ilk".data =
      some ("r2".data, "e2".data) := by
  have hchar : ∀ (cand : Str) (tbl : List (Str × (Str × Str))),
      lookupTitle tbl cand =
        match lookupAssoc tbl cand with
        | some v => some v
        | none => (firstLongestKey (tbl.filter (matchingEntry cand))).map
            (fun e => e.2) := by
    intro cand tbl
    unfold lookupTitle
    cases lookupAssoc tbl cand with
    | some v => rfl
    | none => rw [fuzzyBest_eq_firstLongestKey]
  refine ⟨hchar, ?_, by decide, by decide⟩
  intro cand tbl v hnone hres
  rw [hchar, hnone] at hres
  cases hfk : firstLongestKey (tbl.filter (matchingEntry cand)) with
  | none => rw [hfk] at hres; cases hres
  | some efound =>
    rw [hfk] at hres
    have hv : efound.2 = v := by
      simpa using hres
    obtain ⟨h1, h2, _⟩ := foldl_pickLongerKey_spec _ none efound hfk
    rcases h1 with h1 | h1
    · cases h1
    · obtain ⟨hmem, hmatch⟩ := List.mem_filter.mp h1
      refine ⟨efound, hmem, hmatch, hv, ?_⟩
      intro e2 he2 hm2
      exact h2 e2 (List.mem_filter.mpr ⟨he2, hm2⟩)

theorem fuzzy_longest_key_selected_witness :
    ∃ e ∈ [("milk".data, ("r1".data, "e1".data)),
        ("cleansing milk".data, ("r2".data, "e2".data))],
      matchingEntry "ilk".data e = true ∧ e.2 = ("r2".data, "e2".data) ∧
      ∀ e2 ∈ [("milk".data, ("r1".data, "e1".data)),
          ("cleansing milk".data, ("r2".data, "e2".data))],
        matchingEntry "ilk".data e2 = true → e2.1.length ≤ e.1.length :=
  fuzzy_longest_key_selected.2.1 "ilk".data _ _ (by decide) (by decide)

theorem stepPage_empty_title (s : AsmState) (e : Nat × Page)
    (h1 : (stripL e.2.top_left_title_norm).isEmpty = true)
    (h2 : optStrTruthy s.curTitle = true) :
    stepPage s e = { s with curPages := s.curPages ++ [e.1] } := by
  unfold stepPage
  simp [h1, h2]

theorem stepPage_empty_title_sec (s : AsmState) (e : Nat × Page)
    (h1 : (stripL e.2.top_left_title_norm).isEmpty = true)
    (h2 : optStrTruthy s.curTitle = false) :
    stepPage s e = { s with secPages := s.secPages ++ [e.1] } := by
  unfold stepPage
  simp [h1, h2]

theorem stepPage_same_title (s : AsmState) (e : Nat × Page)
    (h1 : (stripL e.2.top_left_title_norm).isEmpty = false)
    (h2 : s.curTitle = some (stripL e.2.top_left_title_norm)) :
    stepPage s e = { s with curPages := s.curPages ++ [e.1] } := by
  unfold stepPage
  simp [h1, h2]

theorem stepPage_new_title (s : AsmState) (e : Nat × Page)
    (h1 : (stripL e.2.top_left_title_norm).isEmpty = false)
    (h2 : s.curTitle ≠ some (stripL e.2.top_left_title_norm)) :
    stepPage s e =
      { closed := s.closed ++ closeList s,
        curTitle := some (stripL e.2.top_left_title_norm),
        curPages := [e.1], secPages := s.secPages } := by
  unfold stepPage
  simp [h1, h2]

theorem closeList_eq (s : AsmState) (t : Str) (ht : s.curTitle = some t)
    (hne : t.isEmpty = false) (hp : s.curPages ≠ []) :
    closeList s = [(t, s.curPages)] := by
  unfold closeList
  rw [ht]
  have h2 : s.curPages.isEmpty = false := by
    cases hcp : s.curPages with
    | nil => exact absurd hcp hp
    | cons a r => rfl
  simp [hne, h2]

theorem stepPage_closed (s : AsmState) (e : Nat × Page) :
    ∃ ext, (stepPage s e).closed = s.closed ++ ext := by
  by_cases h1 : (stripL e.2.top_left_title_norm).isEmpty
  · by_cases h2 : optStrTruthy s.curTitle
    · exact ⟨[], by rw [stepPage_empty_title s e h1 h2]; simp⟩
    · exact ⟨[], by
        rw [stepPage_empty_title_sec s e h1 (by simpa using h2)]
        simp⟩
  · have h1' : (stripL e.2.top_left_title_norm).isEmpty = false := by simpa using h1
    by_cases h2 : s.curTitle = some (stripL e.2.top_left_title_norm)
    · exact ⟨[], by rw [stepPage_same_title s e h1' h2]; simp⟩
    · exact ⟨closeList s, by rw [stepPage_new_title s e h1' h2]⟩

theorem runPages_closed_prefix (l : List (Nat × Page)) :
    ∀ s : AsmState, ∃ ext, (runPages s l).closed = s.closed ++ ext := by
  induction l with
  | nil => intro s; exact ⟨[], by simp [runPages]⟩
  | cons e rest ih =>
    intro s
    obtain ⟨ext1, h1⟩ := stepPage_closed s e
    obtain ⟨ext2, h2⟩ := ih (stepPage s e)
    refine ⟨ext1 ++ ext2, ?_⟩
    show (runPages (stepPage s e) rest).closed = _
    rw [h2, h1, List.append_assoc]

theorem final_groups_prefix (l : List (Nat × Page)) (s : AsmState) :
    ∃ ext, (runPages s l).closed ++ closeList (runPages s l) = s.closed ++ ext := by
  obtain ⟨ext, h⟩ := runPages_closed_prefix l s
  exact ⟨ext ++ closeList (runPages s l), by rw [h, List.append_assoc]⟩

theorem curPages_stay_together (l : List (Nat × Page)) :
    ∀ (s : AsmState) (t : Str), s.curTitle = some t → t.isEmpty = false →
      s.curPages ≠ [] →
      ∃ ext g, (runPages s l).closed ++ closeList (runPages s l) = s.closed ++ ext ∧
        g ∈ ext ∧ ∀ x ∈ s.curPages, x ∈ g.2 := by
  induction l with
  | nil =>
    intro s t ht hne hp
    refine ⟨closeList s, (t, s.curPages), rfl, ?_, ?_⟩
    · rw [closeList_eq s t ht hne hp]
      exact List.mem_singleton.mpr rfl
    · intro x hx
      exact hx
  | cons e rest ih =>
    intro s t ht hne hp
    have hrw : runPages s (e :: rest) = runPages (stepPage s e) rest := rfl
    by_cases h1 : (stripL e.2.top_left_title_norm).isEmpty
    · have htr : optStrTruthy s.curTitle = true := by
        rw [ht]
        simpa [optStrTruthy] using hne
      rw [hrw, stepPage_empty_title s e h1 htr]
      obtain ⟨ext, g, hG, hg, hcov⟩ :=
        ih { s with curPages := s.curPages ++ [e.1] } t ht hne (by simp)
      exact ⟨ext, g, hG, hg, fun x hx => hcov x (List.mem_append_left _ hx)⟩
    · have h1' : (stripL e.2.top_left_title_norm).isEmpty = false := by simpa using h1
      by_cases h2 : s.curTitle = some (stripL e.2.top_left_title_norm)
      · rw [hrw, stepPage_same_title s e h1' h2]
        obtain ⟨ext, g, hG, hg, hcov⟩ :=
          ih { s with curPages := s.curPages ++ [e.1] } t ht hne (by simp)
        exact ⟨ext, g, hG, hg, fun x hx => hcov x (List.mem_append_left _ hx)⟩
      · rw [hrw, stepPage_new_title s e h1' h2]
        obtain ⟨ext2, hext2⟩ := final_groups_prefix rest
          { closed := s.closed ++ closeList s,
            curTitle := some (stripL e.2.top_left_title_norm),
            curPages := [e.1], secPages := s.secPages }
        refine ⟨closeList s ++ ext2, (t, s.curPages), ?_, ?_, fun x hx => hx⟩
        · rw [hext2]
          show (s.closed ++ closeList s) ++ ext2 = _
          rw [List.append_assoc]
        · rw [closeList_eq s t ht hne hp]
          exact List.mem_append_left _ (List.mem_singleton.mpr rfl)

theorem runPages_secPages_truthy (l : List (Nat × Page)) :
    ∀ s : AsmState, optStrTruthy s.curTitle = true →
      (runPages s l).secPages = s.secPages := by
  induction l with
  | nil => intro s _; rfl
  | cons e rest ih =>
    intro s h
    have hrw : runPages s (e :: rest) = runPages (stepPage s e) rest := rfl
    by_cases h1 : (stripL e.2.top_left_title_norm).isEmpty
    · rw [hrw, stepPage_empty_title s e h1 h]
      exact ih _ h
    · have h1' : (stripL e.2.top_left_title_norm).isEmpty = false := by simpa using h1
      by_cases h2 : s.curTitle = some (stripL e.2.top_left_title_norm)
      · rw [hrw, stepPage_same_title s e h1' h2]
        exact ih _ h
      · rw [hrw, stepPage_new_title s e h1' h2]
        exact ih _ (by simpa [optStrTruthy] using h1')

theorem runPages_secPages_none (l : List (Nat × Page)) :
    ∀ s : AsmState, s.curTitle = none →
      (runPages s l).secPages = s.secPages ++
        (l.takeWhile (fun e => (stripL e.2.top_left_title_norm).isEmpty)).map
          Prod.fst := by
  induction l with
  | nil => intro s _; simp [runPages]
  | cons e rest ih =>
    intro s h
    have hrw : runPages s (e :: rest) = runPages (stepPage s e) rest := rfl
    by_cases h1 : (stripL e.2.top_left_title_norm).isEmpty
    · have htr : optStrTruthy s.curTitle = false := by rw [h]; rfl
      rw [hrw, stepPage_empty_title_sec s e h1 htr]
      rw [ih { s with secPages := s.secPages ++ [e.1] } h]
      simp [List.takeWhile_cons, h1]
    · have h1' : (stripL e.2.top_left_title_norm).isEmpty = false := by simpa using h1
      have h2 : s.curTitle ≠ some (stripL e.2.top_left_title_norm) := by
        rw [h]
        simp
      rw [hrw, stepPage_new_title s e h1' h2]
      rw [runPages_secPages_truthy rest _ (by simpa [optStrTruthy] using h1')]
      simp [List.takeWhile_cons, h1]

theorem stepPage_title_state (s : AsmState) (e : Nat × Page)
    (h1 : (stripL e.2.top_left_title_norm).isEmpty = false) :
    (stepPage s e).curTitle = some (stripL e.2.top_left_title_norm) ∧
    e.1 ∈ (stepPage s e).curPages ∧ (stepPage s e).curPages ≠ [] := by
  by_cases h2 : s.curTitle = some (stripL e.2.top_left_title_norm)
  · rw [stepPage_same_title s e h1 h2]
    exact ⟨h2, List.mem_append_right _ (List.mem_singleton.mpr rfl), by simp⟩
  · rw [stepPage_new_title s e h1 h2]
    exact ⟨rfl, List.mem_singleton.mpr rfl, by simp⟩

/-- C2: the assembler walks the pages in ascending page-number order (the
processed sequence is the sorted permutation of the page map); two
consecutive pages whose stripped normalized titles are non-empty and differ
end up in two distinct product groups (at strictly increasing positions of
the group list), and two consecutive pages with the same non-empty stripped
normalized title end up in one product group. -/
theorem assemble_title_state_machine (pm : List (Nat × Page))
    (l₁ l₂ : List (Nat × Page)) (i j : Nat) (p q : Page)
    (hsort : sortPages pm = l₁ ++ (i, p) :: (j, q) :: l₂)
    (hp : (stripL p.top_left_title_norm).isEmpty = false)
    (hq : (stripL q.top_left_title_norm).isEmpty = false) :
    ((sortPages pm).map Prod.fst).Sorted (· ≤ ·) ∧
    ((sortPages pm).map Prod.fst).Perm (pm.map Prod.fst) ∧
    (stripL p.top_left_title_norm ≠ stripL q.top_left_title_norm →
      ∃ k1 k2 g1 g2, k1 < k2 ∧
        (assembleGroups pm).1.get? k1 = some g1 ∧
        (assembleGroups pm).1.get? k2 = some g2 ∧
        i ∈ g1.2 ∧ j ∈ g2.2) ∧
    (stripL p.top_left_title_norm = stripL q.top_left_title_norm →
      ∃ g ∈ (assembleGroups pm).1, i ∈ g.2 ∧ j ∈ g.2) := by
  haveI : IsTotal (Nat × Page) (fun a b => a.1 ≤ b.1) :=
    ⟨fun a b => Nat.le_total a.1 b.1⟩
  haveI : IsTrans (Nat × Page) (fun a b => a.1 ≤ b.1) :=
    ⟨fun _ _ _ hab hbc => Nat.le_trans hab hbc⟩
  have hsorted : ((sortPages pm).map Prod.fst).Sorted (· ≤ ·) := by
    have hs := List.sorted_insertionSort (fun a b : Nat × Page => a.1 ≤ b.1) pm
    exact List.Pairwise.map Prod.fst (fun a b hab => hab) hs
  have hperm : ((sortPages pm).map Prod.fst).Perm (pm.map Prod.fst) :=
    (List.perm_insertionSort (fun a b : Nat × Page => a.1 ≤ b.1) pm).map Prod.fst
  have hGdef : (assembleGroups pm).1 =
      (runPages (stepPage (stepPage (runPages initAsm l₁) (i, p)) (j, q)) l₂).closed ++
        closeList (runPages (stepPage (stepPage (runPages initAsm l₁) (i, p)) (j, q)) l₂) := by
    show (runPages initAsm (sortPages pm)).closed ++
        closeList (runPages initAsm (sortPages pm)) = _
    rw [hsort]
    simp only [runPages, List.foldl_append, List.foldl_cons]
  obtain ⟨ht2, hi2, hne2⟩ := stepPage_title_state (runPages initAsm l₁) (i, p) hp
  refine ⟨hsorted, hperm, ?_, ?_⟩
  · intro hdiff
    have h2q : (stepPage (runPages initAsm l₁) (i, p)).curTitle ≠
        some (stripL q.top_left_title_norm) := by
      rw [ht2]
      intro hc
      exact hdiff (Option.some.inj hc)
    have hstep3 := stepPage_new_title (stepPage (runPages initAsm l₁) (i, p)) (j, q) hq h2q
    have hclose2 : closeList (stepPage (runPages initAsm l₁) (i, p)) =
        [(stripL p.top_left_title_norm, (stepPage (runPages initAsm l₁) (i, p)).curPages)] :=
      closeList_eq _ _ ht2 hp hne2
    obtain ⟨ext, g, hG, hg, hcov⟩ := curPages_stay_together l₂
      (stepPage (stepPage (runPages initAsm l₁) (i, p)) (j, q))
      (stripL q.top_left_title_norm) (by rw [hstep3]) hq (by rw [hstep3]; simp)
    obtain ⟨m, hm⟩ := List.get?_of_mem hg
    rw [hstep3] at hG
    have hG2 : (assembleGroups pm).1 =
        (stepPage (runPages initAsm l₁) (i, p)).closed ++
          ((stripL p.top_left_title_norm,
            (stepPage (runPages initAsm l₁) (i, p)).curPages) :: ext) := by
      rw [hGdef, hstep3, hG]
      show ((stepPage (runPages initAsm l₁) (i, p)).closed ++
        closeList (stepPage (runPages initAsm l₁) (i, p))) ++ ext = _
      rw [hclose2, List.append_assoc]
      rfl
    refine ⟨(stepPage (runPages initAsm l₁) (i, p)).closed.length,
      (stepPage (runPages initAsm l₁) (i, p)).closed.length + (m + 1),
      (stripL p.top_left_title_norm, (stepPage (runPages initAsm l₁) (i, p)).curPages),
      g, ?_, ?_, ?_, hi2,
      hcov j (by rw [hstep3]; exact List.mem_singleton.mpr rfl)⟩
    · exact Nat.lt_add_of_pos_right (Nat.succ_pos m)
    · rw [hG2, List.get?_append_right (Nat.le_refl _), Nat.sub_self]
      rfl
    · rw [hG2, List.get?_append_right (Nat.le_add_right _ _), Nat.add_sub_cancel_left]
      exact hm
  · intro heq
    have h2q : (stepPage (runPages initAsm l₁) (i, p)).curTitle =
        some (stripL q.top_left_title_norm) := by
      rw [ht2, heq]
    have hstep3 := stepPage_same_title (stepPage (runPages initAsm l₁) (i, p)) (j, q) hq h2q
    obtain ⟨ext, g, hG, hg, hcov⟩ := curPages_stay_together l₂
      (stepPage (stepPage (runPages initAsm l₁) (i, p)) (j, q))
      (stripL q.top_left_title_norm) (by rw [hstep3]; exact h2q) hq
      (by rw [hstep3]; simp)
    refine ⟨g, ?_, ?_, ?_⟩
    · rw [hGdef, hG]
      exact List.mem_append_right _ hg
    · apply hcov
      rw [hstep3]
      exact List.mem_append_left _ hi2
    · apply hcov
      rw [hstep3]
      exact List.mem_append_right _ (List.mem_singleton.mpr rfl)

theorem assemble_title_state_machine_witness :
    ∃ k1 k2 g1 g2, k1 < k2 ∧
      (assembleGroups pmTwoTitles).1.get? k1 = some g1 ∧
      (assembleGroups pmTwoTitles).1.get? k2 = some g2 ∧
      0 ∈ g1.2 ∧ 1 ∈ g2.2 :=
  (assemble_title_state_machine pmTwoTitles [] []
    0 1 ⟨"A.".data, [], "а".data, []⟩ ⟨"B.".data, [], "б".data, []⟩
    (by decide) (by decide) (by decide)).2.2.1 (by decide)

theorem assembleBlocks_mem_product (pm : List (Nat × Page)) (b : Block)
    (hb : b ∈ (assembleGroups pm).1.map (fun g =>
      Block.mk .product g.1 g.2 (createProductBlock (buildTitleLookup pm) g.1 g.2 pm))) :
    b.kind = BlockKind.product := by
  obtain ⟨g, _, hg⟩ := List.mem_map.mp hb
  rw [← hg]

theorem assembleBlocks_cases (pm : List (Nat × Page)) :
    (assembleBlocks pm =
        Block.mk .sectionB [] (assembleGroups pm).2
            (createSectionBlock (assembleGroups pm).2 pm) ::
          (assembleGroups pm).1.map (fun g =>
            Block.mk .product g.1 g.2
              (createProductBlock (buildTitleLookup pm) g.1 g.2 pm)) ∧
        (assembleGroups pm).2 ≠ [] ∧
        (stripL (createSectionBlock (assembleGroups pm).2 pm)).isEmpty = false) ∨
      (assembleBlocks pm = (assembleGroups pm).1.map (fun g =>
          Block.mk .product g.1 g.2
            (createProductBlock (buildTitleLookup pm) g.1 g.2 pm)) ∧
        ((assembleGroups pm).2 = [] ∨
          (stripL (createSectionBlock (assembleGroups pm).2 pm)).isEmpty = true)) := by
  unfold assembleBlocks
  by_cases hA : (assembleGroups pm).2.isEmpty
  · refine Or.inr ⟨by simp [hA], Or.inl (List.isEmpty_iff.mp hA)⟩
  · have hA' : (assembleGroups pm).2.isEmpty = false := by simpa using hA
    by_cases hB : (stripL (createSectionBlock (assembleGroups pm).2 pm)).isEmpty
    · exact Or.inr ⟨by simp [hA', hB], Or.inr hB⟩
    · have hB' : (stripL (createSectionBlock (assembleGroups pm).2 pm)).isEmpty = false := by
        simpa using hB
      refine Or.inl ⟨by simp [hA', hB'], ?_, hB'⟩
      intro hc
      rw [hc] at hA'
      simp at hA'

/-- C8: a final block list contains at most one Section block; the section
page list is exactly the pages preceding the first page with a non-empty
stripped normalized title (in ascending page order); any Section block
carries exactly those pages, their rendered text, and sits at position 0;
and the Section block exists exactly when that rendered text is non-empty —
an empty rendering contributes no block. -/
theorem section_block_unique_first (pm : List (Nat × Page)) :
    ((assembleBlocks pm).countP (fun b => b.kind == BlockKind.sectionB) ≤ 1) ∧
    ((assembleGroups pm).2 =
      ((sortPages pm).takeWhile
        (fun e => (stripL e.2.top_left_title_norm).isEmpty)).map Prod.fst) ∧
    (∀ b ∈ assembleBlocks pm, b.kind = BlockKind.sectionB →
      b.pages = (assembleGroups pm).2 ∧ (assembleBlocks pm).head? = some b ∧
      b.text = createSectionBlock (assembleGroups pm).2 pm) ∧
    ((stripL (createSectionBlock (assembleGroups pm).2 pm)).isEmpty = true →
      ∀ b ∈ assembleBlocks pm, b.kind = BlockKind.product) ∧
    ((stripL (createSectionBlock (assembleGroups pm).2 pm)).isEmpty = false →
      ∃ b, (assembleBlocks pm).head? = some b ∧ b.kind = BlockKind.sectionB ∧
        b.pages = (assembleGroups pm).2) := by
  have hcount0 : ((assembleGroups pm).1.map (fun g =>
      Block.mk .product g.1 g.2
        (createProductBlock (buildTitleLookup pm) g.1 g.2 pm))).countP
      (fun b => b.kind == BlockKind.sectionB) = 0 := by
    rw [List.countP_eq_zero]
    intro b hb
    rw [assembleBlocks_mem_product pm b hb]
    decide
  have hsec : (assembleGroups pm).2 =
      ((sortPages pm).takeWhile
        (fun e => (stripL e.2.top_left_title_norm).isEmpty)).map Prod.fst := by
    show (runPages initAsm (sortPages pm)).secPages = _
    rw [runPages_secPages_none (sortPages pm) initAsm rfl]
    rfl
  rcases assembleBlocks_cases pm with ⟨heq, _, hne⟩ | ⟨heq, hempty⟩
  · refine ⟨?_, hsec, ?_, ?_, ?_⟩
    · rw [heq, List.countP_cons, hcount0]
      simp
    · intro b hb hk
      rw [heq] at hb
      rcases List.mem_cons.mp hb with rfl | hb
      · exact ⟨rfl, by rw [heq]; rfl, rfl⟩
      · exact absurd (assembleBlocks_mem_product pm b hb) (by rw [hk]; decide)
    · intro hstrip
      rw [hstrip] at hne
      cases hne
    · intro _
      exact ⟨_, by rw [heq]; rfl, rfl, rfl⟩
  · refine ⟨?_, hsec, ?_, ?_, ?_⟩
    · rw [heq, hcount0]
      decide
    · intro b hb hk
      rw [heq] at hb
      exact absurd (assembleBlocks_mem_product pm b hb) (by rw [hk]; decide)
    · intro _ b hb
      rw [heq] at hb
      exact assembleBlocks_mem_product pm b hb
    · intro hne
      rcases hempty with hA | hB
      · have : createSectionBlock (assembleGroups pm).2 pm = [] := by
          rw [hA]
          rfl
        rw [this] at hne
        cases hne
      · rw [hB] at hne
        cases hne

theorem section_block_unique_first_witness :
    (assembleGroups pmSection).2 = [0, 1] ∧
    ∃ b, (assembleBlocks pmSection).head? = some b ∧ b.kind = BlockKind.sectionB ∧
      b.pages = (assembleGroups pmSection).2 := by
  refine ⟨by decide, (section_block_unique_first pmSection).2.2.2.2 (by decide)⟩

theorem noTwoAdjacentBlank_tail {a : Str} {l : List Str}
    (h : noTwoAdjacentBlank (a :: l) = true) : noTwoAdjacentBlank l = true := by
  cases l with
  | nil => rfl
  | cons b r =>
    unfold noTwoAdjacentBlank at h
    simp only [Bool.and_eq_true] at h
    exact h.2

theorem collapseEmpties_head_true (ls : List Str) :
    ∀ a l', collapseEmpties ls true = a :: l' → (stripL a).isEmpty = false := by
  induction ls with
  | nil => intro a l' h; cases h
  | cons line rest ih =>
    intro a l' h
    by_cases hb : (stripL line).isEmpty
    · rw [show collapseEmpties (line :: rest) true = collapseEmpties rest true from by
        simp [collapseEmpties, hb]] at h
      exact ih a l' h
    · rw [show collapseEmpties (line :: rest) true = line :: collapseEmpties rest false from by
        simp [collapseEmpties, hb]] at h
      cases h
      simpa using hb

theorem collapseEmpties_adj (ls : List Str) :
    ∀ flag, noTwoAdjacentBlank (collapseEmpties ls flag) = true := by
  induction ls with
  | nil => intro flag; rfl
  | cons line rest ih =>
    intro flag
    by_cases hb : (stripL line).isEmpty
    · cases flag with
      | true =>
        rw [show collapseEmpties (line :: rest) true = collapseEmpties rest true from by
          simp [collapseEmpties, hb]]
        exact ih true
      | false =>
        rw [show collapseEmpties (line :: rest) false = [] :: collapseEmpties rest true from by
          simp [collapseEmpties, hb]]
        cases hco : collapseEmpties rest true with
        | nil => rfl
        | cons b r =>
          have hbb : (stripL b).isEmpty = false := collapseEmpties_head_true rest b r hco
          have hrest : noTwoAdjacentBlank (b :: r) = true := by
            rw [← hco]; exact ih true
          unfold noTwoAdjacentBlank
          rw [hrest]
          simp [isBlankLine, hbb]
    · have hb' : (stripL line).isEmpty = false := by simpa using hb
      rw [show collapseEmpties (line :: rest) flag = line :: collapseEmpties rest false from by
        simp [collapseEmpties, hb']]
      cases hco : collapseEmpties rest false with
      | nil => rfl
      | cons b r =>
        have hrest : noTwoAdjacentBlank (b :: r) = true := by
          rw [← hco]; exact ih false
        unfold noTwoAdjacentBlank
        rw [hrest]
        simp [isBlankLine, hb']

theorem noTwoAdjacentBlank_dropWhile (p : Str → Bool) (l : List Str)
    (h : noTwoAdjacentBlank l = true) : noTwoAdjacentBlank (l.dropWhile p) = true := by
  induction l with
  | nil => rfl
  | cons a rest ih =>
    by_cases hp : p a
    · rw [List.dropWhile_cons_of_pos hp]
      exact ih (noTwoAdjacentBlank_tail h)
    · rw [List.dropWhile_cons_of_neg hp]
      exact h

theorem noTwoAdjacentBlank_append_left (l₁ l₂ : List Str)
    (h : noTwoAdjacentBlank (l₁ ++ l₂) = true) :
    noTwoAdjacentBlank l₁ = true := by
  induction l₁ with
  | nil => rfl
  | cons a rest ih =>
    cases rest with
    | nil => rfl
    | cons b r =>
      rw [List.cons_append] at h
      rw [show ((b :: r : List Str) ++ l₂) = b :: (r ++ l₂) from rfl] at h
      unfold noTwoAdjacentBlank at h
      simp only [Bool.and_eq_true] at h
      obtain ⟨h1, h2⟩ := h
      unfold noTwoAdjacentBlank
      rw [h1, ih (by rw [List.cons_append]; exact h2)]
      rfl

theorem dropWhile_head_false (p : Str → Bool) (l : List Str) :
    ∀ a l', l.dropWhile p = a :: l' → p a = false := by
  induction l with
  | nil => intro a l' h; cases h
  | cons x rest ih =>
    intro a l' h
    by_cases hp : p x
    · rw [List.dropWhile_cons_of_pos hp] at h
      exact ih a l' h
    · rw [List.dropWhile_cons_of_neg hp] at h
      cases h
      simpa using hp

theorem reverse_dropWhile_prefix (p : Str → Bool) (ls : List Str) :
    ∃ t, ls = (ls.reverse.dropWhile p).reverse ++ t := by
  refine ⟨(ls.reverse.takeWhile p).reverse, ?_⟩
  have h2 := congrArg List.reverse (List.takeWhile_append_dropWhile p ls.reverse)
  rw [List.reverse_append, List.reverse_reverse] at h2
  exact h2.symm

theorem cleanBlockLines_normalized (t : Str) :
    noTwoAdjacentBlank (cleanBlockLines t) = true ∧
    firstLastNonBlank (cleanBlockLines t) = true := by
  have hadj : noTwoAdjacentBlank (collapseEmpties (splitLines t) false) = true :=
    collapseEmpties_adj (splitLines t) false
  have hadj2 : noTwoAdjacentBlank
      ((collapseEmpties (splitLines t) false).dropWhile isBlankLine) = true :=
    noTwoAdjacentBlank_dropWhile _ _ hadj
  obtain ⟨tl, htl⟩ := reverse_dropWhile_prefix isBlankLine
    ((collapseEmpties (splitLines t) false).dropWhile isBlankLine)
  have hadj3 : noTwoAdjacentBlank (cleanBlockLines t) = true := by
    apply noTwoAdjacentBlank_append_left _ tl
    show noTwoAdjacentBlank
      ((((collapseEmpties (splitLines t) false).dropWhile
        isBlankLine).reverse.dropWhile isBlankLine).reverse ++ tl) = true
    rw [← htl]
    exact hadj2
  refine ⟨hadj3, ?_⟩
  unfold firstLastNonBlank
  cases h3 : cleanBlockLines t with
  | nil => rfl
  | cons a r =>
    have hpre : (collapseEmpties (splitLines t) false).dropWhile isBlankLine =
        a :: (r ++ tl) := by
      rw [htl]
      unfold cleanBlockLines at h3
      rw [h3]
      rfl
    have hhead : isBlankLine a = false :=
      dropWhile_head_false isBlankLine (collapseEmpties (splitLines t) false)
        a (r ++ tl) hpre
    have hrev : (cleanBlockLines t).reverse =
        (((collapseEmpties (splitLines t) false).dropWhile
          isBlankLine).reverse.dropWhile isBlankLine) := by
      unfold cleanBlockLines
      rw [List.reverse_reverse]
    cases hrv : (cleanBlockLines t).reverse with
    | nil =>
      rw [h3] at hrv
      simp at hrv
    | cons b rb =>
      have hlastb : isBlankLine b = false := by
        apply dropWhile_head_false isBlankLine
          ((collapseEmpties (splitLines t) false).dropWhile isBlankLine).reverse b rb
        rw [← hrev]
        exact hrv
      have hgl : (a :: r).getLastD [] = b := by
        have h5 : (a :: r).reverse = b :: rb := by rw [← h3]; exact hrv
        have h6 : (a :: r).getLast? = some b := by
          rw [← List.head?_reverse, h5]
          rfl
        rw [List.getLastD_eq_getLast?, h6]
        rfl
      rw [hgl]
      show (!isBlankLine a && !isBlankLine b) = true
      rw [hhead, hlastb]
      rfl

set_option maxHeartbeats 2000000 in
/-- C9 as stated is false: the block text does not separate all its parts by
blank lines, and the composition is not taken from the block's first page.
For a product whose first page has empty body text and composition `C1`,
and whose second page has body `X.` and composition `C2`, the code renders
`"т\nC2\n\nX."` — the composition of the second page, separated from the
title by a single newline — not `"т\n\nC1\n\nX."`. -/
theorem product_block_spec_counterexample :
    ¬ (∀ (pm : List (Nat × Page)) (b : Block), b ∈ assembleBlocks pm →
        b.kind = BlockKind.product →
        b.text = specProductBlockText (buildTitleLookup pm) b.anchorTitle b.pages pm) := by
  intro h
  have hb := h pmCompShift
    ⟨BlockKind.product, "т".data, [1, 2], "т\nC2\n\nX.".data⟩ (by decide) rfl
  exact absurd hb (by decide)

set_option maxHeartbeats 2000000 in
/-- C9 amended: every product block's text is the resolved title; then, when
the first member page with non-empty body text carries a composition, that
composition on the following line (a single newline separates them); then a
blank line and the member pages' combined body text; and the body is
blank-line normalized: `clean_block` yields lines with no two adjacent
blanks and non-blank first and last lines. -/
theorem product_block_render :
    (∀ (pm : List (Nat × Page)) (b : Block), b ∈ assembleBlocks pm →
      b.kind = BlockKind.product →
      b.text = amendedProductBlockText (buildTitleLookup pm) b.anchorTitle b.pages pm) ∧
    (∀ t : Str, cleanBlock t = joinLines (cleanBlockLines t) ∧
      noTwoAdjacentBlank (cleanBlockLines t) = true ∧
      firstLastNonBlank (cleanBlockLines t) = true) := by
  constructor
  · intro pm b hb hk
    have hmap : ∀ hb2 : b ∈ (assembleGroups pm).1.map (fun g =>
        Block.mk .product g.1 g.2
          (createProductBlock (buildTitleLookup pm) g.1 g.2 pm)),
        b.text = amendedProductBlockText (buildTitleLookup pm) b.anchorTitle b.pages pm := by
      intro hb2
      obtain ⟨g, _, hgb⟩ := List.mem_map.mp hb2
      rw [← hgb]
      rfl
    rcases assembleBlocks_cases pm with ⟨heq, _, _⟩ | ⟨heq, _⟩
    · rw [heq] at hb
      rcases List.mem_cons.mp hb with rfl | hb
      · cases hk
      · exact hmap hb
    · rw [heq] at hb
      exact hmap hb
  · intro t
    exact ⟨rfl, (cleanBlockLines_normalized t).1, (cleanBlockLines_normalized t).2⟩

set_option maxHeartbeats 2000000 in
theorem product_block_render_witness :
    (Block.mk BlockKind.product "т".data [1, 2] "т\nC2\n\nX.".data).text =
      amendedProductBlockText (buildTitleLookup pmCompShift) "т".data [1, 2]
        pmCompShift :=
  product_block_render.1 pmCompShift
    (Block.mk BlockKind.product "т".data [1, 2] "т\nC2\n\nX.".data) (by decide) rfl
